import Mathlib

/-!
Verification of the CUDA 2D non-maximum-suppression core (`nms_cuda.cu`).

The development shallowly embeds the two device kernels and the host
orchestration:

* `flagWord` / `maskWord` embed `nms2d_iou_kernel`'s computation of one word
  of the bit-packed overlap matrix (`mask_[idx][col_start] = flag`), and
  `iouCoeff` embeds its accumulation into the soft coefficient matrix
  (`iou_coeffs_[idx][i] *= ...`).  The geometry capability `iou`, as well as
  the math-library functions `pow` and `exp`, are abstract parameters,
  exactly as the spec declares geometric IoU out of scope.
* `softBit`, `collectStep`, `runUpTo` and `runCollect` embed
  `nms_collect_kernel`, the strictly sequential reduction, with the state
  (`remv_`, `scores_`, `suppressed_`) made explicit.
* `keepIdx`, `maskedScores`, `orderList`, `finalState`, `nmsFlags` embed the
  host function `nms2d_cuda`: score pre-filtering (`scores > score_threshold`),
  descending `argsort` (pinned to the stable tie-break by ascending index,
  since `torch::argsort` leaves ties unspecified) and the kernel launches.
* A small heap model (`Heap`, `halloc`, `hwrite`) embeds the tensor
  allocation discipline of `nms2d_cuda` for the frame claim.

Scores, thresholds and IoU values live in an arbitrary linearly ordered
commutative ring `K` (so every theorem holds in particular for the real
numbers the spec speaks about); concrete witnesses instantiate `K := ℤ`.
The division `-iou²/p` of the Gaussian decay is folded into the abstract
exponential `ex`, which receives numerator and denominator separately.
The machine word width is 64 (`FLAG_BITS = 6`, `FLAG_WIDTH = 64` in the
source; `x << 6 = x * 64`, `x >> 6 = x / 64`, `x & 63 = x % 64`).
Bit-packed words are `Nat` values (all words stay below `2 ^ 64`, and
`|||`/`testBit` semantics do not depend on the width, so no modular
reduction is needed).
-/

/-- Pointwise update of a function, modelling a single store into an array. -/
def fupd {α : Type} (f : Nat → α) (i : Nat) (v : α) : Nat → α :=
  fun x => if x = i then v else f x

/-- The suppression kind, spelled as in the source (`SupressionType`). -/
inductive SupressionType : Type
  | HARD
  | LINEAR
  | GAUSSIAN
deriving DecidableEq

/-- `divup` from the source: number of 64-bit blocks covering `a` items. -/
def divup (a b : Nat) : Nat := (a + b - 1) / b

/-- `col_size = min(nboxes - (col_start << FLAG_BITS), FLAG_WIDTH)` from
`nms2d_iou_kernel` (truncated subtraction matches the C code, where a
negative value would make the loops empty). -/
def colSize (n c : Nat) : Nat := min (n - c * 64) 64

/-- `start = (row_start == col_start) ? threadIdx.x + 1 : 0` from
`nms2d_iou_kernel`: inside a diagonal block only strictly later columns are
visited. -/
def loopStart (idx c : Nat) : Nat := if idx / 64 = c then idx % 64 + 1 else 0

section Model

variable {β K : Type} [LinearOrderedCommRing K]

/-- The overlap word computed by one thread of `nms2d_iou_kernel`: starting
from `flag = 0`, bit `i` is ORed in (`flag |= 1ULL << i`) for every column
`i` in `[start, col_size)` whose IoU with the row box exceeds
`iou_threshold`.  Boxes are fetched through the `order` permutation. -/
def flagWord (iou : β → β → K) (box : Nat → β) (ord : Nat → Nat)
    (iouThr : K) (n idx c : Nat) : Nat :=
  (List.range (colSize n c)).foldl
    (fun f i =>
      if loopStart idx c ≤ i ∧ iouThr < iou (box (ord idx)) (box (ord (c * 64 + i)))
      then f ||| 1 <<< i else f) 0

/-- The final value of `mask_[idx][c]`.  The word is written (as `flag`) by
the unique thread with `(row_start << FLAG_BITS) + threadIdx.x = idx` in
block `(c, row_start)`; blocks with `row_start > col_start` return early and
threads with `threadIdx.x >= row_size` do not write, so those words keep the
`torch::zeros` initialisation. -/
def maskWord (iou : β → β → K) (box : Nat → β) (ord : Nat → Nat)
    (iouThr : K) (n idx c : Nat) : Nat :=
  if idx / 64 ≤ c ∧ idx < n then flagWord iou box ord iouThr n idx c else 0

/-- The `switch (Supression)` body of `nms2d_iou_kernel`: one multiplicative
decay accumulation.  `HARD` has no case in the switch, so the accumulator is
returned unchanged.  `po` and `ex` are the abstract math-library `pow` and
`exp` (the Gaussian's division by `p` is folded into `ex`). -/
def decayStep (mode : SupressionType) (po ex : K → K → K) (p acc io : K) : K :=
  match mode with
  | .HARD => acc
  | .LINEAR => acc * (1 - po io p)
  | .GAUSSIAN => acc * ex (-(io * io)) p

/-- The final value of `iou_coeffs_[idx][i]`.  The cell starts at the
`torch::zeros` initialisation (0) and every block `(c, row_start = idx / 64)`
whose inner loop visits local column `i` multiplies its decay factor into it
(`iou_coeffs_[idx][i] *= ...`).  Note the column index is the tile-local `i`,
not the global `c * 64 + i`, so distinct column blocks hit the same cell;
since every update is a multiplication the final value is
schedule-independent. -/
def iouCoeff (mode : SupressionType) (iou : β → β → K)
    (box : Nat → β) (ord : Nat → Nat) (po ex : K → K → K) (p : K)
    (n idx i : Nat) : K :=
  (List.range (divup n 64)).foldl
    (fun acc c =>
      if idx / 64 ≤ c ∧ idx < n ∧ loopStart idx c ≤ i ∧ i < colSize n c then
        decayStep mode po ex p acc (iou (box (ord idx)) (box (ord (c * 64 + i))))
      else acc) 0

/-- State of `nms_collect_kernel`: the block suppression words `remv_`, the
working score array `scores_` and the output flags `suppressed_`. -/
structure CollectState (K : Type) : Type where
  remv : Nat → Nat
  scores : Nat → K
  suppressed : Nat → Bool

/-- One iteration of the innermost soft-mode loop of `nms_collect_kernel`
(loop variable `k`): if bit `k` of `mask_[i][j]` is set and the target
position `i2 = (j << FLAG_BITS) + k` is not already suppressed, multiply
`scores_[i2]` by `iou_coeffs_[i][i2]` and, if the decayed score drops below
`score_threshold`, set bit `k` of `remv_[j]`. -/
def softBit (coeffs : Nat → Nat → K) (mask : Nat → Nat → Nat) (thr : K)
    (i j : Nat) (s : CollectState K) (k : Nat) : CollectState K :=
  if (mask i j).testBit k then
    if (s.remv j).testBit k then s
    else
      if s.scores (j * 64 + k) * coeffs i (j * 64 + k) < thr then
        ⟨fupd s.remv j (s.remv j ||| 1 <<< k),
         fupd s.scores (j * 64 + k) (s.scores (j * 64 + k) * coeffs i (j * 64 + k)),
         s.suppressed⟩
      else
        ⟨s.remv,
         fupd s.scores (j * 64 + k) (s.scores (j * 64 + k) * coeffs i (j * 64 + k)),
         s.suppressed⟩
  else s

/-- One iteration (loop variable `i`) of `nms_collect_kernel`: if sorted
position `i` is already marked in `remv_`, set `suppressed_[order_[i]]`;
otherwise walk the blocks `j = i / 64 .. nblocks - 1`, in hard mode bulk-ORing
`mask_[i][j]` into `remv_[j]`, in soft modes running `softBit` for each of
the 64 bits. -/
def collectStep (mode : SupressionType) (ord : Nat → Nat)
    (mask : Nat → Nat → Nat) (coeffs : Nat → Nat → K) (thr : K)
    (nblocks : Nat) (s : CollectState K) (i : Nat) : CollectState K :=
  if (s.remv (i / 64)).testBit (i % 64) then
    ⟨s.remv, s.scores, fupd s.suppressed (ord i) true⟩
  else
    (List.range (nblocks - i / 64)).foldl
      (fun s' dj =>
        match mode with
        | .HARD =>
            ⟨fupd s'.remv (i / 64 + dj) (s'.remv (i / 64 + dj) ||| mask i (i / 64 + dj)),
             s'.scores, s'.suppressed⟩
        | _ => (List.range 64).foldl (softBit coeffs mask thr i (i / 64 + dj)) s') s

/-- Initial collect state: `remv` is `torch::zeros`, `suppressed` "need to be
filled by false", and the working scores are the input scores. -/
def initCollect (scores0 : Nat → K) : CollectState K :=
  ⟨fun _ => 0, scores0, fun _ => false⟩

/-- The collect state after the first `nsteps` iterations of the sequential
loop of `nms_collect_kernel`. -/
def runUpTo (mode : SupressionType) (ord : Nat → Nat)
    (mask : Nat → Nat → Nat) (coeffs : Nat → Nat → K) (thr : K)
    (nblocks : Nat) (scores0 : Nat → K) (nsteps : Nat) : CollectState K :=
  (List.range nsteps).foldl (collectStep mode ord mask coeffs thr nblocks)
    (initCollect scores0)

/-- The full run of `nms_collect_kernel` (`nboxes` iterations). -/
def runCollect (mode : SupressionType) (ord : Nat → Nat)
    (mask : Nat → Nat → Nat) (coeffs : Nat → Nat → K) (thr : K)
    (nboxes nblocks : Nat) (scores0 : Nat → K) : CollectState K :=
  runUpTo mode ord mask coeffs thr nblocks scores0 nboxes

/-- Host pre-filter of `nms2d_cuda`: the indices kept by
`score_mask = scores > score_threshold` (strict comparison). -/
def keepIdx (scores : List K) (thr : K) : List Nat :=
  (List.range scores.length).filter (fun i => decide (thr < scores.getD i 0))

/-- `scores_masked = scores.index({score_mask})`: the surviving scores in
their original relative order. -/
def maskedScores (scores : List K) (thr : K) : List K :=
  (keepIdx scores thr).map (fun i => scores.getD i 0)

/-- `boxes_masked = boxes.index({score_mask})` viewed as a lookup function on
masked indices. -/
def maskedBox (box : Nat → β) (scores : List K) (thr : K) :
    Nat → β :=
  fun m => box ((keepIdx scores thr).getD m 0)

/-- The descending-score order used to model
`order = scores_masked.argsort(-1, true)`: higher score first, ties broken by
ascending index (a stable descending sort; `torch::argsort` leaves the
tie-break unspecified, so the model pins this deterministic choice). -/
def keyRel (s : List K) (i j : Nat) : Prop :=
  s.getD j 0 < s.getD i 0 ∨ (s.getD i 0 = s.getD j 0 ∧ i ≤ j)

instance keyRelDecidable (s : List K) : DecidableRel (keyRel s) :=
  fun _ _ => inferInstanceAs (Decidable (_ ∨ _ ∧ _))

/-- The `order` tensor: the permutation of `0 .. M-1` sorting the masked
scores in descending order. -/
def orderList (s : List K) : List Nat :=
  List.insertionSort (keyRel s) (List.range s.length)

/-- `order` viewed as a lookup function on sorted positions. -/
def orderFn (s : List K) : Nat → Nat :=
  fun i => (orderList s).getD i 0

/-- The overlap bit matrix produced by the `nms2d_iou_kernel` launch inside
`nms2d_cuda_templated`, as a function of the caller's inputs. -/
def maskOf (iou : β → β → K) (box : Nat → β) (scores : List K)
    (iouThr thr : K) : Nat → Nat → Nat :=
  fun idx c =>
    maskWord iou (maskedBox box scores thr) (orderFn (maskedScores scores thr))
      iouThr (maskedScores scores thr).length idx c

/-- The soft coefficient matrix produced by the same launch.  For `HARD` the
tensor is allocated with shape `{0, 0}` and never written nor read; reading
the model anyway yields the same constant 0 that `iouCoeff` produces when no
switch case fires. -/
def coeffsOf (mode : SupressionType) (iou : β → β → K)
    (box : Nat → β) (scores : List K) (po ex : K → K → K) (p thr : K) :
    Nat → Nat → K :=
  fun idx i =>
    iouCoeff mode iou (maskedBox box scores thr) (orderFn (maskedScores scores thr))
      po ex p (maskedScores scores thr).length idx i

/-- The collect-kernel state after the full `nms2d_cuda` pipeline: filter,
sort, `nms2d_iou_kernel`, then the sequential `nms_collect_kernel`. -/
def finalState (mode : SupressionType) (iou : β → β → K)
    (po ex : K → K → K) (box : Nat → β) (scores : List K)
    (iouThr thr p : K) : CollectState K :=
  runCollect mode (orderFn (maskedScores scores thr))
    (maskOf iou box scores iouThr thr)
    (coeffsOf mode iou box scores po ex p thr) thr
    (maskedScores scores thr).length (divup (maskedScores scores thr).length 64)
    (fun m => (maskedScores scores thr).getD m 0)

/-- The boolean tensor returned by `nms2d_cuda`: `suppressed`, of length
`boxes_masked.size(0)`. -/
def nmsFlags (mode : SupressionType) (iou : β → β → K)
    (po ex : K → K → K) (box : Nat → β) (scores : List K)
    (iouThr thr p : K) : List Bool :=
  (List.range (maskedScores scores thr).length).map
    (finalState mode iou po ex box scores iouThr thr p).suppressed

/-- Masked indices of the shapes a run keeps (output flag `false`). -/
def keptIdx (mode : SupressionType) (iou : β → β → K)
    (po ex : K → K → K) (box : Nat → β) (scores : List K)
    (iouThr thr p : K) : List Nat :=
  (List.range (maskedScores scores thr).length).filter
    (fun m => !(finalState mode iou po ex box scores iouThr thr p).suppressed m)

/-- The scores of the kept shapes, as the caller would feed them back in. -/
def keptScores (mode : SupressionType) (iou : β → β → K)
    (po ex : K → K → K) (box : Nat → β) (scores : List K)
    (iouThr thr p : K) : List K :=
  (keptIdx mode iou po ex box scores iouThr thr p).map
    (fun m => (maskedScores scores thr).getD m 0)

/-- The boxes of the kept shapes, as the caller would feed them back in. -/
def keptBox (mode : SupressionType) (iou : β → β → K)
    (po ex : K → K → K) (box : Nat → β) (scores : List K)
    (iouThr thr p : K) : Nat → β :=
  fun u =>
    maskedBox box scores thr
      ((keptIdx mode iou po ex box scores iouThr thr p).getD u 0)

end Model

section FoldLemmas

variable {σ α : Type}

/-- An invariant preserved by every step of a fold is preserved by the fold. -/
theorem foldl_inv (P : σ → Prop) (g : σ → α → σ) :
    ∀ (l : List α) (s : σ), P s → (∀ s' a, P s' → P (g s' a)) → P (l.foldl g s) := by
  intro l
  induction l with
  | nil => intro s h0 _; exact h0
  | cons a l ih => intro s h0 hstep; exact ih (g s a) (hstep s a h0) hstep

/-- Bits of a fold that ORs `1 <<< i` into the accumulator for the indices
`i < m` satisfying `P i`. -/
theorem foldl_orbit (P : Nat → Prop) [DecidablePred P] :
    ∀ (m a k : Nat),
      ((List.range m).foldl (fun f i => if P i then f ||| 1 <<< i else f) a).testBit k
        = (a.testBit k || decide (k < m ∧ P k)) := by
  intro m
  induction m with
  | zero => intro a k; simp
  | succ m ih =>
    intro a k
    rw [List.range_succ, List.foldl_append, List.foldl_cons, List.foldl_nil]
    by_cases hP : P m
    · rw [if_pos hP, Nat.testBit_or, ih]
      have h1 : (1 <<< m).testBit k = decide (m = k) := by
        rw [Nat.shiftLeft_eq, one_mul, Nat.testBit_two_pow]
      rw [h1]
      rcases Nat.lt_trichotomy k m with h | h | h
      · simp [h, Nat.lt_succ_of_lt h, Nat.ne_of_gt h]
      · subst h; simp [Nat.lt_irrefl, Nat.lt_succ_self, hP]
      · have h1 : ¬ k < m := Nat.lt_asymm h
        have h2 : m ≠ k := Nat.ne_of_lt h
        have h3 : ¬ k < m + 1 := by omega
        simp [h1, h2, h3]
    · rw [if_neg hP, ih]
      have : (k < m ∧ P k) ↔ (k < m + 1 ∧ P k) := by
        constructor
        · rintro ⟨h1, h2⟩; exact ⟨Nat.lt_succ_of_lt h1, h2⟩
        · rintro ⟨h1, h2⟩
          rcases Nat.lt_succ_iff_lt_or_eq.mp h1 with h1 | h1
          · exact ⟨h1, h2⟩
          · subst h1; exact absurd h2 hP
      simp only [decide_eq_decide.mpr this]

/-- A fold whose every step maps the accumulator 0 to 0 stays at 0. -/
theorem foldl_zero {K : Type} [LinearOrderedCommRing K] (g : K → α → K)
    (l : List α) (h : ∀ a, g 0 a = 0) : l.foldl g 0 = 0 := by
  induction l with
  | nil => rfl
  | cons a l ih => rw [List.foldl_cons, h a]; exact ih

end FoldLemmas

section KernelLemmas

variable {β K : Type} [LinearOrderedCommRing K]

/-- Bit `k` of the word computed by one `nms2d_iou_kernel` thread is set iff
local column `k` is visited by the inner loop and its IoU with the row box
exceeds the threshold. -/
theorem flagWord_testBit (iou : β → β → K) (box : Nat → β) (ord : Nat → Nat)
    (iouThr : K) (n idx c k : Nat) :
    (flagWord iou box ord iouThr n idx c).testBit k
      = decide (k < colSize n c ∧ loopStart idx c ≤ k ∧
          iouThr < iou (box (ord idx)) (box (ord (c * 64 + k)))) := by
  unfold flagWord
  rw [foldl_orbit (fun i => loopStart idx c ≤ i ∧
        iouThr < iou (box (ord idx)) (box (ord (c * 64 + i))))]
  simp [and_assoc]

/-- Decomposition of a global sorted position into its block and bit. -/
theorem block_bit_lt {idx c k : Nat} (hk : k < colSize n c)
    (hs : loopStart idx c ≤ k) (hc : idx / 64 ≤ c) :
    idx < c * 64 + k ∧ c * 64 + k < n := by
  constructor
  · by_cases h : idx / 64 = c
    · have : loopStart idx c = idx % 64 + 1 := by simp [loopStart, h]
      have h2 : idx % 64 + 1 ≤ k := this ▸ hs
      have h3 : idx = 64 * (idx / 64) + idx % 64 := (Nat.div_add_mod idx 64).symm
      omega
    · have hlt : idx / 64 < c := lt_of_le_of_ne hc h
      have h3 : idx = 64 * (idx / 64) + idx % 64 := (Nat.div_add_mod idx 64).symm
      have h4 : idx % 64 < 64 := Nat.mod_lt _ (by omega)
      omega
  · have : k < n - c * 64 := lt_of_lt_of_le hk (min_le_left _ _)
    omega

/-- Full characterisation of the bits of a word of the overlap matrix. -/
theorem maskWord_testBit (iou : β → β → K) (box : Nat → β) (ord : Nat → Nat)
    (iouThr : K) (n idx c k : Nat) :
    (maskWord iou box ord iouThr n idx c).testBit k
      = decide (idx / 64 ≤ c ∧ idx < n ∧ k < colSize n c ∧ loopStart idx c ≤ k ∧
          iouThr < iou (box (ord idx)) (box (ord (c * 64 + k)))) := by
  unfold maskWord
  by_cases h : idx / 64 ≤ c ∧ idx < n
  · rw [if_pos h, flagWord_testBit]
    simp [h.1, h.2]
  · rw [if_neg h, Nat.zero_testBit]
    rcases Decidable.not_and_iff_or_not.mp h with h' | h' <;> simp [h']

/-- If a bit of the overlap matrix is set then its global column position is
strictly after the row position and below `n`. -/
theorem maskWord_testBit_pos {iou : β → β → K} {box : Nat → β} {ord : Nat → Nat}
    {iouThr : K} {n idx c k : Nat}
    (h : (maskWord iou box ord iouThr n idx c).testBit k = true) :
    idx < c * 64 + k ∧ c * 64 + k < n ∧
      iouThr < iou (box (ord idx)) (box (ord (c * 64 + k))) := by
  rw [maskWord_testBit, decide_eq_true_eq] at h
  obtain ⟨hc, _, hk, hs, hiou⟩ := h
  obtain ⟨h1, h2⟩ := block_bit_lt hk hs hc
  exact ⟨h1, h2, hiou⟩

/-- C5: after the pairwise phase, a bit is set in overlap row `idx` for the
global sorted position `c * 64 + k` only if that position is strictly after
`idx` in sorted order and the pair's IoU strictly exceeds `iou_threshold`;
consequently every bit whose position is at or before `idx` is zero.  Stated
for an arbitrary input (boxes, order, threshold) and any number `n` of
surviving shapes; the matrix does not depend on the suppression mode. -/
theorem claimC5_mask_strict_upper_triangle (iou : β → β → K) (box : Nat → β)
    (ord : Nat → Nat) (iouThr : K) (n idx c k : Nat) :
    ((maskWord iou box ord iouThr n idx c).testBit k = true →
        idx < c * 64 + k ∧ c * 64 + k < n ∧
          iouThr < iou (box (ord idx)) (box (ord (c * 64 + k)))) ∧
      (c * 64 + k ≤ idx →
        (maskWord iou box ord iouThr n idx c).testBit k = false) := by
  constructor
  · exact maskWord_testBit_pos
  · intro hle
    by_contra hne
    have htrue : (maskWord iou box ord iouThr n idx c).testBit k = true :=
      eq_true_of_ne_false fun h => hne (h ▸ rfl)
    have := (maskWord_testBit_pos htrue).1
    omega

/-- Witness for C5 at a concrete input: two boxes with IoU 8 > threshold 4,
identity order; bit 1 of word (0,0) is set, and the conclusions hold there,
while bit 0 of row 1 (a position at or before the row) is zero. -/
theorem claimC5_mask_strict_upper_triangle_witness :
    (0 < 0 * 64 + 1 ∧ 0 * 64 + 1 < 2 ∧
      (4:ℤ) < (fun _ _ => (8:ℤ)) ((fun n => n) ((fun i => i) 0)) ((fun n => n) ((fun i => i) (0 * 64 + 1)))) ∧
    (maskWord (fun _ _ => (8:ℤ)) (fun n => n) (fun i => i) 4 2 1 0).testBit 0 = false :=
  ⟨(claimC5_mask_strict_upper_triangle (fun _ _ => (8:ℤ)) (fun n => n) (fun i => i) 4 2 0 0 1).1
      (by decide),
   (claimC5_mask_strict_upper_triangle (fun _ _ => (8:ℤ)) (fun n => n) (fun i => i) 4 2 1 0 0).2
      (by decide)⟩

/-- Because `iou_coeffs` is allocated with `torch::zeros` and only ever
multiplied into, every cell of the soft coefficient matrix is 0. -/
theorem iouCoeff_eq_zero (mode : SupressionType) (iou : β → β → K)
    (box : Nat → β) (ord : Nat → Nat) (po ex : K → K → K) (p : K)
    (n idx i : Nat) :
    iouCoeff mode iou box ord po ex p n idx i = 0 := by
  unfold iouCoeff
  apply foldl_zero
  intro c
  by_cases h : idx / 64 ≤ c ∧ idx < n ∧ loopStart idx c ≤ i ∧ i < colSize n c
  · rw [if_pos h]
    cases mode <;> simp [decayStep]
  · rw [if_neg h]

/-- The pipeline's coefficient matrix is identically zero as well. -/
theorem coeffsOf_eq_zero (mode : SupressionType) (iou : β → β → K)
    (box : Nat → β) (scores : List K) (po ex : K → K → K) (p thr : K)
    (idx i : Nat) :
    coeffsOf mode iou box scores po ex p thr idx i = 0 :=
  iouCoeff_eq_zero ..

end KernelLemmas

/-- C1 (code bug): in soft mode LINEAR, at a concrete qualifying pair
(2 shapes, IoU 8 > threshold 4, `pow io p = io`, `p = 1`), the coefficient
cell for the pair holds 0 — it neither starts at 1.0 nor ends at the decay
factor `1 - pow(IoU, p) = -7`, because the matrix is allocated with
`torch::zeros` and only multiplied into. -/
theorem claimC1_coeff_cell_zero_not_decay :
    coeffsOf .LINEAR (fun _ _ => (8:ℤ)) (fun n => n) ([5, 9] : List ℤ)
        (fun a _ => a) (fun a _ => a) 1 0 0 1 = 0 ∧
      coeffsOf .LINEAR (fun _ _ => (8:ℤ)) (fun n => n) ([5, 9] : List ℤ)
        (fun a _ => a) (fun a _ => a) 1 0 0 1 ≠ 1 - (fun a (_ : ℤ) => a) 8 1 := by
  refine ⟨coeffsOf_eq_zero .., ?_⟩
  rw [coeffsOf_eq_zero]
  decide

section CollectMono

variable {β K : Type} [LinearOrderedCommRing K]

/-- A `softBit` step never clears a `remv_` bit. -/
theorem softBit_remv_mono (coeffs : Nat → Nat → K) (mask : Nat → Nat → Nat)
    (thr : K) (i j : Nat) (s : CollectState K) (k b t : Nat)
    (h : (s.remv b).testBit t = true) :
    ((softBit coeffs mask thr i j s k).remv b).testBit t = true := by
  unfold softBit
  split
  · split
    · exact h
    · split
      · show (fupd s.remv j _ b).testBit t = true
        unfold fupd
        split
        · next hb =>
          subst hb
          rw [Nat.testBit_or, h]
          rfl
        · exact h
      · exact h
  · exact h

/-- A `softBit` step never clears a `suppressed_` flag (it never writes it). -/
theorem softBit_suppressed_eq (coeffs : Nat → Nat → K) (mask : Nat → Nat → Nat)
    (thr : K) (i j : Nat) (s : CollectState K) (k : Nat) :
    (softBit coeffs mask thr i j s k).suppressed = s.suppressed := by
  unfold softBit
  split
  · split
    · rfl
    · split <;> rfl
  · rfl

/-- One iteration of the sequential loop never clears a `remv_` bit. -/
theorem collectStep_remv_mono (mode : SupressionType) (ord : Nat → Nat)
    (mask : Nat → Nat → Nat) (coeffs : Nat → Nat → K) (thr : K)
    (nblocks : Nat) (s : CollectState K) (i b t : Nat)
    (h : (s.remv b).testBit t = true) :
    ((collectStep mode ord mask coeffs thr nblocks s i).remv b).testBit t = true := by
  unfold collectStep
  split
  · exact h
  · apply foldl_inv (fun s' : CollectState K => (s'.remv b).testBit t = true)
    · exact h
    · intro s' dj hs'
      cases mode with
      | HARD =>
        show ((fupd s'.remv _ _) b).testBit t = true
        unfold fupd
        split
        · next hb => rw [hb] at hs'; rw [Nat.testBit_or, hs']; rfl
        · exact hs'
      | LINEAR =>
        exact foldl_inv (fun s'' : CollectState K => (s''.remv b).testBit t = true) _ _ _ hs'
          (fun s'' a h'' => softBit_remv_mono coeffs mask thr i _ s'' a b t h'')
      | GAUSSIAN =>
        exact foldl_inv (fun s'' : CollectState K => (s''.remv b).testBit t = true) _ _ _ hs'
          (fun s'' a h'' => softBit_remv_mono coeffs mask thr i _ s'' a b t h'')

/-- One iteration of the sequential loop never clears a `suppressed_` flag. -/
theorem collectStep_suppressed_mono (mode : SupressionType) (ord : Nat → Nat)
    (mask : Nat → Nat → Nat) (coeffs : Nat → Nat → K) (thr : K)
    (nblocks : Nat) (s : CollectState K) (i m : Nat)
    (h : s.suppressed m = true) :
    (collectStep mode ord mask coeffs thr nblocks s i).suppressed m = true := by
  unfold collectStep
  split
  · show fupd s.suppressed (ord i) true m = true
    unfold fupd
    split
    · rfl
    · exact h
  · apply foldl_inv (fun s' : CollectState K => s'.suppressed m = true)
    · exact h
    · intro s' dj hs'
      cases mode with
      | HARD => exact hs'
      | LINEAR =>
        exact foldl_inv (fun s'' : CollectState K => s''.suppressed m = true) _ _ _ hs'
          (fun s'' a h'' => by
            show (softBit coeffs mask thr i _ s'' a).suppressed m = true
            rw [softBit_suppressed_eq]; exact h'')
      | GAUSSIAN =>
        exact foldl_inv (fun s'' : CollectState K => s''.suppressed m = true) _ _ _ hs'
          (fun s'' a h'' => by
            show (softBit coeffs mask thr i _ s'' a).suppressed m = true
            rw [softBit_suppressed_eq]; exact h'')

/-- Unfolding one step of the sequential loop. -/
theorem runUpTo_succ (mode : SupressionType) (ord : Nat → Nat)
    (mask : Nat → Nat → Nat) (coeffs : Nat → Nat → K) (thr : K)
    (nblocks : Nat) (scores0 : Nat → K) (n : Nat) :
    runUpTo mode ord mask coeffs thr nblocks scores0 (n + 1)
      = collectStep mode ord mask coeffs thr nblocks
          (runUpTo mode ord mask coeffs thr nblocks scores0 n) n := by
  unfold runUpTo
  rw [List.range_succ, List.foldl_append, List.foldl_cons, List.foldl_nil]

/-- C6: throughout the sequential reduction, in every mode, `remv_` bits are
only ever set and never cleared, and `suppressed_` flags only go from false
to true: whatever is marked after `n` steps is still marked after any
`m ≥ n` steps. -/
theorem claimC6_suppression_monotone (mode : SupressionType) (ord : Nat → Nat)
    (mask : Nat → Nat → Nat) (coeffs : Nat → Nat → K) (thr : K)
    (nblocks : Nat) (scores0 : Nat → K) (n m b t idx : Nat) (h : n ≤ m) :
    (((runUpTo mode ord mask coeffs thr nblocks scores0 n).remv b).testBit t = true →
        ((runUpTo mode ord mask coeffs thr nblocks scores0 m).remv b).testBit t = true) ∧
      ((runUpTo mode ord mask coeffs thr nblocks scores0 n).suppressed idx = true →
        (runUpTo mode ord mask coeffs thr nblocks scores0 m).suppressed idx = true) := by
  induction m, h using Nat.le_induction with
  | base => exact ⟨id, id⟩
  | succ m _ ih =>
    rw [runUpTo_succ]
    exact ⟨fun hb => collectStep_remv_mono mode ord mask coeffs thr nblocks _ m b t (ih.1 hb),
           fun hs => collectStep_suppressed_mono mode ord mask coeffs thr nblocks _ m idx (ih.2 hs)⟩

end CollectMono

/-- Witness for C6 at a concrete hard-mode input (two shapes, reversed
order, overlap bit (0,1) set): the `remv_` bit set after step 1 is still set
after step 3, and the flag set after step 2 is still set after step 3. -/
theorem claimC6_suppression_monotone_witness :
    ((runUpTo .HARD (fun i => [1, 0].getD i 0)
        (fun i j => if i = 0 ∧ j = 0 then 2 else 0) (fun _ _ => (0:ℤ)) 0 1
        (fun _ => 5) 3).remv 0).testBit 1 = true ∧
      (runUpTo .HARD (fun i => [1, 0].getD i 0)
        (fun i j => if i = 0 ∧ j = 0 then 2 else 0) (fun _ _ => (0:ℤ)) 0 1
        (fun _ => 5) 3).suppressed 0 = true :=
  ⟨(claimC6_suppression_monotone .HARD (fun i => [1, 0].getD i 0)
      (fun i j => if i = 0 ∧ j = 0 then 2 else 0) (fun _ _ => (0:ℤ)) 0 1
      (fun _ => 5) 1 3 0 1 0 (by decide)).1 (by decide),
   (claimC6_suppression_monotone .HARD (fun i => [1, 0].getD i 0)
      (fun i j => if i = 0 ∧ j = 0 then 2 else 0) (fun _ _ => (0:ℤ)) 0 1
      (fun _ => 5) 2 3 0 1 0 (by decide)).2 (by decide)⟩

section CollectSources

variable {β K : Type} [LinearOrderedCommRing K]

/-- A `remv_` bit set by a `softBit` step comes from the corresponding bit of
the overlap word being processed. -/
theorem softBit_remv_new (coeffs : Nat → Nat → K) (mask : Nat → Nat → Nat)
    (thr : K) (i j : Nat) (s : CollectState K) (k b t : Nat)
    (h : ((softBit coeffs mask thr i j s k).remv b).testBit t = true) :
    (s.remv b).testBit t = true ∨ (b = j ∧ t = k ∧ (mask i j).testBit k = true) := by
  unfold softBit at h
  split at h
  · next hmask =>
    split at h
    · exact Or.inl h
    · split at h
      · replace h : (fupd s.remv j (s.remv j ||| 1 <<< k) b).testBit t = true := h
        unfold fupd at h
        split at h
        · next hb =>
          rw [Nat.testBit_or] at h
          rcases Bool.or_eq_true_iff.mp h with h' | h'
          · exact Or.inl (hb ▸ h')
          · rw [Nat.shiftLeft_eq, one_mul, Nat.testBit_two_pow, decide_eq_true_eq] at h'
            exact Or.inr ⟨hb, h'.symm, hmask⟩
        · exact Or.inl h
      · exact Or.inl h
  · exact Or.inl h

/-- A `remv_` bit set by one iteration of the sequential loop comes from the
overlap row of that iteration (in any mode). -/
theorem collectStep_remv_new (mode : SupressionType) (ord : Nat → Nat)
    (mask : Nat → Nat → Nat) (coeffs : Nat → Nat → K) (thr : K)
    (nblocks : Nat) (s : CollectState K) (i b t : Nat)
    (h : ((collectStep mode ord mask coeffs thr nblocks s i).remv b).testBit t = true) :
    (s.remv b).testBit t = true ∨ (mask i b).testBit t = true := by
  unfold collectStep at h
  split at h
  · exact Or.inl h
  · revert h
    refine foldl_inv
      (fun s' : CollectState K => (s'.remv b).testBit t = true →
        (s.remv b).testBit t = true ∨ (mask i b).testBit t = true) _ _ _ Or.inl ?_
    intro s' dj hs'
    cases mode with
    | HARD =>
      intro h
      replace h : (fupd s'.remv (i / 64 + dj) (s'.remv (i / 64 + dj) ||| mask i (i / 64 + dj)) b).testBit t = true := h
      unfold fupd at h
      split at h
      · next hb =>
        rw [Nat.testBit_or] at h
        rcases Bool.or_eq_true_iff.mp h with h' | h'
        · exact hs' (by rw [hb]; exact h')
        · exact Or.inr (by rw [hb]; exact h')
      · exact hs' h
    | LINEAR =>
      refine foldl_inv
        (fun s'' : CollectState K => (s''.remv b).testBit t = true →
          (s.remv b).testBit t = true ∨ (mask i b).testBit t = true) _ _ _ hs' ?_
      intro s'' a hs'' h
      rcases softBit_remv_new coeffs mask thr i _ s'' a b t h with h' | ⟨hb, ht, hm⟩
      · exact hs'' h'
      · exact Or.inr (by rw [hb, ht]; exact hm)
    | GAUSSIAN =>
      refine foldl_inv
        (fun s'' : CollectState K => (s''.remv b).testBit t = true →
          (s.remv b).testBit t = true ∨ (mask i b).testBit t = true) _ _ _ hs' ?_
      intro s'' a hs'' h
      rcases softBit_remv_new coeffs mask thr i _ s'' a b t h with h' | ⟨hb, ht, hm⟩
      · exact hs'' h'
      · exact Or.inr (by rw [hb, ht]; exact hm)

/-- Every set `remv_` bit after `n` steps traces back to a set bit of some
earlier overlap row. -/
theorem runUpTo_remv_source (mode : SupressionType) (ord : Nat → Nat)
    (mask : Nat → Nat → Nat) (coeffs : Nat → Nat → K) (thr : K)
    (nblocks : Nat) (scores0 : Nat → K) :
    ∀ (n b t : Nat),
      ((runUpTo mode ord mask coeffs thr nblocks scores0 n).remv b).testBit t = true →
        ∃ i, i < n ∧ (mask i b).testBit t = true := by
  intro n
  induction n with
  | zero => intro b t h; simp [runUpTo, initCollect] at h
  | succ n ih =>
    intro b t h
    rw [runUpTo_succ] at h
    rcases collectStep_remv_new mode ord mask coeffs thr nblocks _ n b t h with h' | h'
    · obtain ⟨i, hi, hm⟩ := ih b t h'
      exact ⟨i, Nat.lt_succ_of_lt hi, hm⟩
    · exact ⟨n, Nat.lt_succ_self n, h'⟩

/-- When the overlap matrix is strictly upper-triangular, the `remv_` bit of
a position `p` never changes from step `p` on. -/
theorem runUpTo_remv_stable (mode : SupressionType) (ord : Nat → Nat)
    (mask : Nat → Nat → Nat) (coeffs : Nat → Nat → K) (thr : K)
    (nblocks : Nat) (scores0 : Nat → K)
    (hU : ∀ i b t, (mask i b).testBit t = true → i < b * 64 + t)
    (p : Nat) :
    ∀ (n : Nat), p ≤ n →
      ((runUpTo mode ord mask coeffs thr nblocks scores0 n).remv (p / 64)).testBit (p % 64)
        = ((runUpTo mode ord mask coeffs thr nblocks scores0 p).remv (p / 64)).testBit (p % 64) := by
  intro n hn
  induction n, hn using Nat.le_induction with
  | base => rfl
  | succ n hn ih =>
    rw [runUpTo_succ]
    rw [← ih]
    set s := runUpTo mode ord mask coeffs thr nblocks scores0 n with hs
    by_cases hcur : (s.remv (p / 64)).testBit (p % 64) = true
    · rw [hcur]
      exact collectStep_remv_mono mode ord mask coeffs thr nblocks s n (p / 64) (p % 64) hcur
    · rw [Bool.not_eq_true] at hcur
      rw [hcur]
      by_contra hne
      have hset : ((collectStep mode ord mask coeffs thr nblocks s n).remv (p / 64)).testBit (p % 64) = true :=
        eq_true_of_ne_false fun h => hne (h ▸ rfl)
      rcases collectStep_remv_new mode ord mask coeffs thr nblocks s n (p / 64) (p % 64) hset with h' | h'
      · rw [hcur] at h'; exact Bool.false_ne_true h'
      · have := hU n (p / 64) (p % 64) h'
        have hp : p / 64 * 64 + p % 64 = p := by omega
        omega

/-- Characterisation of one iteration's effect on the output flags. -/
theorem collectStep_suppressed_char (mode : SupressionType) (ord : Nat → Nat)
    (mask : Nat → Nat → Nat) (coeffs : Nat → Nat → K) (thr : K)
    (nblocks : Nat) (s : CollectState K) (i m : Nat) :
    ((collectStep mode ord mask coeffs thr nblocks s i).suppressed m = true)
      ↔ (s.suppressed m = true ∨
          (m = ord i ∧ (s.remv (i / 64)).testBit (i % 64) = true)) := by
  unfold collectStep
  split
  · next hbit =>
    show (fupd s.suppressed (ord i) true m = true) ↔ _
    unfold fupd
    split
    · next hm => simp [hm, hbit]
    · next hm => simp [hm]
  · next hbit =>
    rw [Bool.not_eq_true] at hbit
    constructor
    · revert hbit
      refine fun hbit =>
        foldl_inv (fun s' : CollectState K => s'.suppressed m = true → _) _ _ _ Or.inl ?_
      intro s' dj hs' h
      cases mode with
      | HARD => exact hs' h
      | LINEAR =>
        revert h
        refine foldl_inv (fun s'' : CollectState K => s''.suppressed m = true → _) _ _ _ hs' ?_
        intro s'' a hs'' h
        rw [softBit_suppressed_eq] at h
        exact hs'' h
      | GAUSSIAN =>
        revert h
        refine foldl_inv (fun s'' : CollectState K => s''.suppressed m = true → _) _ _ _ hs' ?_
        intro s'' a hs'' h
        rw [softBit_suppressed_eq] at h
        exact hs'' h
    · rintro (h | ⟨_, hbit'⟩)
      · exact foldl_inv (fun s' : CollectState K => s'.suppressed m = true) _ _ _ h
          (fun s' dj hs' => by
            cases mode with
            | HARD => exact hs'
            | LINEAR =>
              exact foldl_inv (fun s'' : CollectState K => s''.suppressed m = true) _ _ _ hs'
                (fun s'' a h'' => by
                  show (softBit coeffs mask thr i _ s'' a).suppressed m = true
                  rw [softBit_suppressed_eq]; exact h'')
            | GAUSSIAN =>
              exact foldl_inv (fun s'' : CollectState K => s''.suppressed m = true) _ _ _ hs'
                (fun s'' a h'' => by
                  show (softBit coeffs mask thr i _ s'' a).suppressed m = true
                  rw [softBit_suppressed_eq]; exact h''))
      · rw [hbit] at hbit'
        exact absurd hbit' Bool.false_ne_true

/-- A flag is set after `n` steps iff some earlier iteration found its sorted
position already marked in `remv_`. -/
theorem runUpTo_suppressed_char (mode : SupressionType) (ord : Nat → Nat)
    (mask : Nat → Nat → Nat) (coeffs : Nat → Nat → K) (thr : K)
    (nblocks : Nat) (scores0 : Nat → K) :
    ∀ (n m : Nat),
      ((runUpTo mode ord mask coeffs thr nblocks scores0 n).suppressed m = true)
        ↔ ∃ i, i < n ∧ m = ord i ∧
            ((runUpTo mode ord mask coeffs thr nblocks scores0 i).remv (i / 64)).testBit (i % 64) = true := by
  intro n
  induction n with
  | zero =>
    intro m
    constructor
    · intro h; simp [runUpTo, initCollect] at h
    · rintro ⟨i, hi, _⟩; omega
  | succ n ih =>
    intro m
    rw [runUpTo_succ, collectStep_suppressed_char, ih]
    constructor
    · rintro (⟨i, hi, hm, hb⟩ | ⟨hm, hb⟩)
      · exact ⟨i, Nat.lt_succ_of_lt hi, hm, hb⟩
      · exact ⟨n, Nat.lt_succ_self n, hm, hb⟩
    · rintro ⟨i, hi, hm, hb⟩
      rcases Nat.lt_succ_iff_lt_or_eq.mp hi with hi' | hi'
      · exact Or.inl ⟨i, hi', hm, hb⟩
      · subst hi'; exact Or.inr ⟨hm, hb⟩

end CollectSources

section OrderFacts

variable {β K : Type} [LinearOrderedCommRing K]

instance keyRelTotal (s : List K) : IsTotal Nat (keyRel s) := by
  constructor
  intro i j
  rcases lt_trichotomy (s.getD i 0) (s.getD j 0) with h | h | h
  · exact Or.inr (Or.inl h)
  · rcases Nat.le_total i j with hij | hij
    · exact Or.inl (Or.inr ⟨h, hij⟩)
    · exact Or.inr (Or.inr ⟨h.symm, hij⟩)
  · exact Or.inl (Or.inl h)

instance keyRelTrans (s : List K) : IsTrans Nat (keyRel s) := by
  constructor
  rintro i j k (hij | ⟨hij, hij'⟩) (hjk | ⟨hjk, hjk'⟩)
  · exact Or.inl (hjk.trans hij)
  · exact Or.inl (by rw [← hjk]; exact hij)
  · exact Or.inl (by rw [hij]; exact hjk)
  · exact Or.inr ⟨hij.trans hjk, hij'.trans hjk'⟩

instance keyRelAntisymm (s : List K) : IsAntisymm Nat (keyRel s) := by
  constructor
  rintro i j (hij | ⟨hij, hij'⟩) (hji | ⟨hji, hji'⟩)
  · exact absurd hij (lt_asymm hji)
  · exact absurd hij (hji ▸ lt_irrefl _)
  · exact absurd hji (hij ▸ lt_irrefl _)
  · exact Nat.le_antisymm hij' hji'

/-- The order produced by the model's argsort is a permutation of the sorted
positions. -/
theorem orderList_perm (s : List K) :
    List.Perm (orderList s) (List.range s.length) :=
  List.perm_insertionSort (keyRel s) (List.range s.length)

/-- The order has one entry per surviving shape. -/
theorem orderList_length (s : List K) : (orderList s).length = s.length := by
  rw [(orderList_perm s).length_eq, List.length_range]

/-- The order is sorted by descending score (with the pinned tie-break). -/
theorem orderList_sorted (s : List K) :
    List.Sorted (keyRel s) (orderList s) :=
  List.sorted_insertionSort (keyRel s) (List.range s.length)

/-- No sorted position repeats a masked index. -/
theorem orderList_nodup (s : List K) : (orderList s).Nodup :=
  (orderList_perm s).nodup_iff.mpr (List.nodup_range _)

/-- Every order entry is a valid masked index. -/
theorem orderFn_lt (s : List K) {p : Nat} (hp : p < s.length) :
    orderFn s p < s.length := by
  have hlen : p < (orderList s).length := by rw [orderList_length]; exact hp
  have hmem : orderFn s p ∈ orderList s := by
    unfold orderFn
    rw [List.getD_eq_getElem _ 0 hlen]
    exact List.getElem_mem hlen
  exact List.mem_range.mp ((orderList_perm s).mem_iff.mp hmem)

/-- The order is injective on valid sorted positions. -/
theorem orderFn_inj (s : List K) {p q : Nat} (hp : p < s.length)
    (hq : q < s.length) (h : orderFn s p = orderFn s q) : p = q := by
  have hlp : p < (orderList s).length := by rw [orderList_length]; exact hp
  have hlq : q < (orderList s).length := by rw [orderList_length]; exact hq
  unfold orderFn at h
  rw [List.getD_eq_getElem _ 0 hlp, List.getD_eq_getElem _ 0 hlq] at h
  exact (List.Nodup.getElem_inj_iff (orderList_nodup s)).mp h

/-- Every masked index appears at some valid sorted position. -/
theorem orderFn_surj (s : List K) {m : Nat} (hm : m < s.length) :
    ∃ p, p < s.length ∧ orderFn s p = m := by
  have hmem : m ∈ orderList s :=
    (orderList_perm s).mem_iff.mpr (List.mem_range.mpr hm)
  obtain ⟨p, hp, hget⟩ := List.getElem_of_mem hmem
  refine ⟨p, ?_, ?_⟩
  · rw [orderList_length] at hp; exact hp
  · unfold orderFn
    rw [List.getD_eq_getElem _ 0 hp, hget]

/-- Masked scores are non-increasing along the sorted order. -/
theorem orderFn_scores_sorted (s : List K) {p q : Nat} (hpq : p < q)
    (hq : q < s.length) :
    s.getD (orderFn s q) 0 ≤ s.getD (orderFn s p) 0 := by
  have hlq : q < (orderList s).length := by rw [orderList_length]; exact hq
  have hlp : p < (orderList s).length := lt_trans hpq hlq
  have hkey : keyRel s (orderList s)[p] (orderList s)[q] :=
    List.pairwise_iff_getElem.mp (orderList_sorted s) p q hlp hlq hpq
  have hgp : orderFn s p = (orderList s)[p] := List.getD_eq_getElem _ 0 hlp
  have hgq : orderFn s q = (orderList s)[q] := List.getD_eq_getElem _ 0 hlq
  rw [hgp, hgq]
  rcases hkey with h | ⟨h, _⟩
  · exact le_of_lt h
  · exact le_of_eq h.symm

end OrderFacts

section PipelineFacts

variable {β K : Type} [LinearOrderedCommRing K]

/-- The pipeline's overlap matrix is strictly upper-triangular in global
sorted positions. -/
theorem maskOf_upper (iou : β → β → K) (box : Nat → β) (scores : List K)
    (iouThr thr : K) :
    ∀ i b t, (maskOf iou box scores iouThr thr i b).testBit t = true →
      i < b * 64 + t :=
  fun _ _ _ h => (maskWord_testBit_pos h).1

/-- Reading the returned flag tensor at a masked index below `M` reads the
final `suppressed_` array. -/
theorem nmsFlags_getD (mode : SupressionType) (iou : β → β → K)
    (po ex : K → K → K) (box : Nat → β) (scores : List K)
    (iouThr thr sp : K) (m : Nat) (hm : m < (maskedScores scores thr).length) :
    (nmsFlags mode iou po ex box scores iouThr thr sp).getD m false
      = (finalState mode iou po ex box scores iouThr thr sp).suppressed m := by
  unfold nmsFlags
  have hlen : m < ((List.range (maskedScores scores thr).length).map
      (finalState mode iou po ex box scores iouThr thr sp).suppressed).length := by
    rw [List.length_map, List.length_range]; exact hm
  rw [List.getD_eq_getElem _ false hlen]
  rw [List.getElem_map]
  congr 1
  exact List.getElem_range _ _

/-- The final value of the `remv_` bit of sorted position `p` is already
fixed after `p` steps of the sequential loop, and equals it. -/
theorem finalState_remv_stable (mode : SupressionType) (iou : β → β → K)
    (po ex : K → K → K) (box : Nat → β) (scores : List K)
    (iouThr thr sp : K) (p : Nat) (hp : p ≤ (maskedScores scores thr).length) :
    ((finalState mode iou po ex box scores iouThr thr sp).remv (p / 64)).testBit (p % 64)
      = ((runUpTo mode (orderFn (maskedScores scores thr))
            (maskOf iou box scores iouThr thr)
            (coeffsOf mode iou box scores po ex sp thr) thr
            (divup (maskedScores scores thr).length 64)
            (fun m => (maskedScores scores thr).getD m 0) p).remv (p / 64)).testBit (p % 64) := by
  unfold finalState runCollect
  exact runUpTo_remv_stable mode (orderFn (maskedScores scores thr))
    (maskOf iou box scores iouThr thr)
    (coeffsOf mode iou box scores po ex sp thr) thr
    (divup (maskedScores scores thr).length 64)
    (fun m => (maskedScores scores thr).getD m 0)
    (maskOf_upper iou box scores iouThr thr) p _ hp

/-- C3 amended: the returned flag vector is keyed by masked (pre-sort) index,
not by sorted position: for every sorted position `p`, the flag at index
`order_[p]` is true iff sorted position `p` was suppressed (its bit in the
final suppression accumulator is set). -/
theorem claimC3_flags_keyed_by_masked_index (mode : SupressionType)
    (iou : β → β → K) (po ex : K → K → K) (box : Nat → β) (scores : List K)
    (iouThr thr sp : K) (p : Nat)
    (hp : p < (maskedScores scores thr).length) :
    (nmsFlags mode iou po ex box scores iouThr thr sp).getD
        (orderFn (maskedScores scores thr) p) false = true
      ↔ ((finalState mode iou po ex box scores iouThr thr sp).remv (p / 64)).testBit (p % 64) = true := by
  rw [nmsFlags_getD mode iou po ex box scores iouThr thr sp _
        (orderFn_lt (maskedScores scores thr) hp)]
  rw [finalState_remv_stable mode iou po ex box scores iouThr thr sp p (le_of_lt hp)]
  unfold finalState runCollect
  rw [runUpTo_suppressed_char]
  constructor
  · rintro ⟨i, hi, hm, hb⟩
    have hieq : p = i :=
      orderFn_inj (maskedScores scores thr) hp hi hm
    subst hieq
    exact hb
  · intro hb
    exact ⟨p, hp, rfl, hb⟩

end PipelineFacts

/-- C3 counterexample: hard mode, two shapes with masked scores `[5, 9]`
(so the sorted order is `[1, 0]`), constant IoU 8 above the threshold 4.
The shape at sorted position 1 is suppressed (its accumulator bit is set),
but entry 1 of the returned vector is false — the flags are not keyed by
sorted position. -/
theorem claimC3_counterexample :
    ((finalState .HARD (fun _ _ => (8:ℤ)) (fun a _ => a) (fun a _ => a)
        (fun n => n) ([5, 9] : List ℤ) 4 0 1).remv 0).testBit 1 = true ∧
      (nmsFlags .HARD (fun _ _ => (8:ℤ)) (fun a _ => a) (fun a _ => a)
        (fun n => n) ([5, 9] : List ℤ) 4 0 1).getD 1 false = false := by
  constructor <;> decide

/-- Witness for the amended C3 at the same concrete input, at sorted
position 1 (masked index `order_[1] = 0`). -/
theorem claimC3_flags_keyed_by_masked_index_witness :
    (nmsFlags .HARD (fun _ _ => (8:ℤ)) (fun a _ => a) (fun a _ => a)
        (fun n => n) ([5, 9] : List ℤ) 4 0 1).getD
        (orderFn (maskedScores ([5, 9] : List ℤ) 0) 1) false = true
      ↔ ((finalState .HARD (fun _ _ => (8:ℤ)) (fun a _ => a) (fun a _ => a)
        (fun n => n) ([5, 9] : List ℤ) 4 0 1).remv (1 / 64)).testBit (1 % 64) = true :=
  claimC3_flags_keyed_by_masked_index .HARD (fun _ _ => (8:ℤ)) (fun a _ => a)
    (fun a _ => a) (fun n => n) ([5, 9] : List ℤ) 4 0 1 1 (by decide)

/-- C4: the shapes entering the kernel phases are exactly those with score
strictly above `score_threshold` (the masked arrays are built from
`keepIdx`); they are processed in an order with non-increasing scores; and
the returned flag vector has length `M`, the number of surviving shapes —
it is not remapped to the original `N`-length indexing. -/
theorem claimC4_prefilter_sort_length {β K : Type} [LinearOrderedCommRing K]
    (mode : SupressionType) (iou : β → β → K) (po ex : K → K → K)
    (box : Nat → β) (scores : List K) (iouThr thr sp : K) :
    (∀ i, i ∈ keepIdx scores thr ↔ (i < scores.length ∧ thr < scores.getD i 0)) ∧
      (∀ i, i + 1 < (maskedScores scores thr).length →
        (maskedScores scores thr).getD (orderFn (maskedScores scores thr) (i + 1)) 0
          ≤ (maskedScores scores thr).getD (orderFn (maskedScores scores thr) i) 0) ∧
      (nmsFlags mode iou po ex box scores iouThr thr sp).length
        = (maskedScores scores thr).length ∧
      (maskedScores scores thr).length = (keepIdx scores thr).length := by
  refine ⟨?_, ?_, ?_, ?_⟩
  · intro i
    unfold keepIdx
    rw [List.mem_filter, List.mem_range, decide_eq_true_eq]
  · intro i hi
    exact orderFn_scores_sorted (maskedScores scores thr) (Nat.lt_succ_self i) hi
  · unfold nmsFlags
    rw [List.length_map, List.length_range]
  · unfold maskedScores
    rw [List.length_map]

/-- Witness for C4 at scores `[5, 9, -3]` with threshold 0: index 2 is
filtered out, index 0 survives, the sorted scores are non-increasing at the
first adjacent pair, and the flag vector has length 2. -/
theorem claimC4_prefilter_sort_length_witness :
    (0 ∈ keepIdx ([5, 9, -3] : List ℤ) 0) ∧
      (maskedScores ([5, 9, -3] : List ℤ) 0).getD
          (orderFn (maskedScores ([5, 9, -3] : List ℤ) 0) (0 + 1)) 0
        ≤ (maskedScores ([5, 9, -3] : List ℤ) 0).getD
          (orderFn (maskedScores ([5, 9, -3] : List ℤ) 0) 0) 0 ∧
      (nmsFlags .HARD (fun _ _ => (8:ℤ)) (fun a _ => a) (fun a _ => a)
        (fun n => n) ([5, 9, -3] : List ℤ) 4 0 1).length = 2 :=
  ⟨((claimC4_prefilter_sort_length .HARD (fun _ _ => (8:ℤ)) (fun a _ => a)
      (fun a _ => a) (fun n => n) ([5, 9, -3] : List ℤ) 4 0 1).1 0).mpr
      ⟨by decide, by decide⟩,
   (claimC4_prefilter_sort_length .HARD (fun _ _ => (8:ℤ)) (fun a _ => a)
      (fun a _ => a) (fun n => n) ([5, 9, -3] : List ℤ) 4 0 1).2.1 0 (by decide),
   ((claimC4_prefilter_sort_length .HARD (fun _ _ => (8:ℤ)) (fun a _ => a)
      (fun a _ => a) (fun n => n) ([5, 9, -3] : List ℤ) 4 0 1).2.2.1).trans (by decide)⟩

/-- C7: in every mode, a surviving shape whose IoU with every other surviving
shape is at most `iou_threshold` (in both argument orders) is never
suppressed: its output flag stays false. -/
theorem claimC7_isolated_never_suppressed {β K : Type} [LinearOrderedCommRing K]
    (mode : SupressionType) (iou : β → β → K) (po ex : K → K → K)
    (box : Nat → β) (scores : List K) (iouThr thr sp : K) (p : Nat)
    (hp : p < (maskedScores scores thr).length)
    (hiso : ∀ m', m' < (maskedScores scores thr).length →
      m' ≠ orderFn (maskedScores scores thr) p →
      iou (maskedBox box scores thr m')
          (maskedBox box scores thr (orderFn (maskedScores scores thr) p)) ≤ iouThr ∧
      iou (maskedBox box scores thr (orderFn (maskedScores scores thr) p))
          (maskedBox box scores thr m') ≤ iouThr) :
    (finalState mode iou po ex box scores iouThr thr sp).suppressed
      (orderFn (maskedScores scores thr) p) = false := by
  have hple : p / 64 * 64 + p % 64 = p := by omega
  have hbit : ((finalState mode iou po ex box scores iouThr thr sp).remv (p / 64)).testBit (p % 64) = false := by
    by_contra hne
    have htrue : ((finalState mode iou po ex box scores iouThr thr sp).remv (p / 64)).testBit (p % 64) = true :=
      eq_true_of_ne_false fun h => hne (h ▸ rfl)
    unfold finalState runCollect at htrue
    obtain ⟨i, hiM, hm⟩ := runUpTo_remv_source mode (orderFn (maskedScores scores thr))
      (maskOf iou box scores iouThr thr)
      (coeffsOf mode iou box scores po ex sp thr) thr
      (divup (maskedScores scores thr).length 64)
      (fun m => (maskedScores scores thr).getD m 0)
      (maskedScores scores thr).length (p / 64) (p % 64) htrue
    unfold maskOf at hm
    obtain ⟨hip, _, hiou⟩ := maskWord_testBit_pos hm
    rw [hple] at hip hiou
    have hiM' : i < (maskedScores scores thr).length := lt_trans hip hp
    have hne' : orderFn (maskedScores scores thr) i ≠ orderFn (maskedScores scores thr) p :=
      fun he => absurd (orderFn_inj (maskedScores scores thr) hiM' hp he) (Nat.ne_of_lt hip)
    exact absurd hiou
      (not_lt.mpr (hiso (orderFn (maskedScores scores thr) i)
        (orderFn_lt (maskedScores scores thr) hiM') hne').1)
  by_contra hsup
  have hsT : (finalState mode iou po ex box scores iouThr thr sp).suppressed
      (orderFn (maskedScores scores thr) p) = true :=
    eq_true_of_ne_false fun h => hsup (h ▸ rfl)
  unfold finalState runCollect at hsT
  rw [runUpTo_suppressed_char] at hsT
  obtain ⟨i, hiM, hm, hb⟩ := hsT
  have hieq : p = i := orderFn_inj (maskedScores scores thr) hp hiM hm
  subst hieq
  have := finalState_remv_stable mode iou po ex box scores iouThr thr sp p (le_of_lt hp)
  rw [hb] at this
  rw [hbit] at this
  exact Bool.false_ne_true this

/-- Witness for C7: two shapes with constant IoU 0 below the threshold 4;
the shape at sorted position 0 (masked index 1) keeps a false flag. -/
theorem claimC7_isolated_never_suppressed_witness :
    (finalState .HARD (fun _ _ => (0:ℤ)) (fun a _ => a) (fun a _ => a)
        (fun n => n) ([5, 9] : List ℤ) 4 0 1).suppressed
      (orderFn (maskedScores ([5, 9] : List ℤ) 0) 0) = false :=
  claimC7_isolated_never_suppressed .HARD (fun _ _ => (0:ℤ)) (fun a _ => a)
    (fun a _ => a) (fun n => n) ([5, 9] : List ℤ) 4 0 1 0 (by decide) (by decide)

section ScoreShape

variable {β K : Type} [LinearOrderedCommRing K]

/-- With an identically-zero coefficient matrix (which is what the pipeline
produces), a `softBit` step leaves every score slot at its old value or
sets it to 0. -/
theorem softBit_scores_zero (coeffs : Nat → Nat → K) (mask : Nat → Nat → Nat)
    (thr : K) (i j : Nat) (s : CollectState K) (k : Nat)
    (hc : ∀ i' m, coeffs i' m = 0) (m : Nat) :
    (softBit coeffs mask thr i j s k).scores m = s.scores m ∨
      (softBit coeffs mask thr i j s k).scores m = 0 := by
  unfold softBit
  split
  · split
    · exact Or.inl rfl
    · have hz : s.scores (j * 64 + k) * coeffs i (j * 64 + k) = 0 := by
        rw [hc]; exact mul_zero _
      split
      · show (fupd s.scores (j * 64 + k) _ m = _) ∨ (fupd s.scores (j * 64 + k) _ m = _)
        unfold fupd
        split
        · exact Or.inr hz
        · exact Or.inl rfl
      · show (fupd s.scores (j * 64 + k) _ m = _) ∨ (fupd s.scores (j * 64 + k) _ m = _)
        unfold fupd
        split
        · exact Or.inr hz
        · exact Or.inl rfl
  · exact Or.inl rfl

/-- Over a whole run with zero coefficients, every score slot ends at its
initial value or at 0. -/
theorem runUpTo_scores_init_or_zero (mode : SupressionType) (ord : Nat → Nat)
    (mask : Nat → Nat → Nat) (coeffs : Nat → Nat → K) (thr : K)
    (nblocks : Nat) (scores0 : Nat → K) (hc : ∀ i' m, coeffs i' m = 0) :
    ∀ n m, (runUpTo mode ord mask coeffs thr nblocks scores0 n).scores m = scores0 m ∨
      (runUpTo mode ord mask coeffs thr nblocks scores0 n).scores m = 0 := by
  intro n
  induction n with
  | zero => intro m; exact Or.inl rfl
  | succ n ih =>
    intro m
    rw [runUpTo_succ]
    set s := runUpTo mode ord mask coeffs thr nblocks scores0 n with hs
    have hstep : ∀ m', (collectStep mode ord mask coeffs thr nblocks s n).scores m' = s.scores m' ∨
        (collectStep mode ord mask coeffs thr nblocks s n).scores m' = 0 := by
      intro m'
      unfold collectStep
      split
      · exact Or.inl rfl
      · refine foldl_inv
          (fun s' : CollectState K => s'.scores m' = s.scores m' ∨ s'.scores m' = 0) _ _ _
          (Or.inl rfl) ?_
        intro s' dj hs'
        cases mode with
        | HARD => exact hs'
        | LINEAR =>
          refine foldl_inv
            (fun s'' : CollectState K => s''.scores m' = s.scores m' ∨ s''.scores m' = 0) _ _ _ hs' ?_
          intro s'' a hs''
          rcases softBit_scores_zero coeffs mask thr n _ s'' a hc m' with h' | h'
          · rw [h']; exact hs''
          · exact Or.inr h'
        | GAUSSIAN =>
          refine foldl_inv
            (fun s'' : CollectState K => s''.scores m' = s.scores m' ∨ s''.scores m' = 0) _ _ _ hs' ?_
          intro s'' a hs''
          rcases softBit_scores_zero coeffs mask thr n _ s'' a hc m' with h' | h'
          · rw [h']; exact hs''
          · exact Or.inr h'
    rcases hstep m with h' | h'
    · rw [h']; exact ih m
    · exact Or.inr h'

end ScoreShape

/-- C9 counterexample: soft LINEAR mode with negative scores passing a
negative threshold (masked scores `[-5, -5]`, `score_threshold = -10`,
IoU 8 above the threshold 4).  The working score at slot 1 is multiplied by
the (zero) coefficient and rises from -5 to 0 — the decay increased a
score. -/
theorem claimC9_counterexample :
    (finalState .LINEAR (fun _ _ => (8:ℤ)) (fun a _ => a) (fun a _ => a)
        (fun n => n) ([-5, -5] : List ℤ) 4 (-10) 1).scores 1 = 0 ∧
      (maskedScores ([-5, -5] : List ℤ) (-10)).getD 1 0 = -5 ∧
      ¬ ((finalState .LINEAR (fun _ _ => (8:ℤ)) (fun a _ => a) (fun a _ => a)
        (fun n => n) ([-5, -5] : List ℤ) 4 (-10) 1).scores 1
          ≤ (maskedScores ([-5, -5] : List ℤ) (-10)).getD 1 0) := by
  refine ⟨by decide, by decide, ?_⟩
  intro h
  rw [show (finalState .LINEAR (fun _ _ => (8:ℤ)) (fun a _ => a) (fun a _ => a)
        (fun n => n) ([-5, -5] : List ℤ) 4 (-10) 1).scores 1 = 0 from by decide] at h
  rw [show (maskedScores ([-5, -5] : List ℤ) (-10)).getD 1 0 = -5 from by decide] at h
  exact absurd h (by decide)

/-- C9 amended: in any mode, for every shape whose working score is
nonnegative before the run, the score held in the working array after the
computation is at most the score it held before (the code multiplies scores
only by cells of the zero-initialised coefficient matrix, so a touched score
becomes 0). -/
theorem claimC9_scores_nonincreasing_of_nonneg {β K : Type}
    [LinearOrderedCommRing K] (mode : SupressionType) (iou : β → β → K)
    (po ex : K → K → K) (box : Nat → β) (scores : List K)
    (iouThr thr sp : K) (m : Nat)
    (h0 : 0 ≤ (maskedScores scores thr).getD m 0) :
    (finalState mode iou po ex box scores iouThr thr sp).scores m
      ≤ (maskedScores scores thr).getD m 0 := by
  unfold finalState runCollect
  rcases runUpTo_scores_init_or_zero mode (orderFn (maskedScores scores thr))
      (maskOf iou box scores iouThr thr)
      (coeffsOf mode iou box scores po ex sp thr) thr
      (divup (maskedScores scores thr).length 64)
      (fun m' => (maskedScores scores thr).getD m' 0)
      (fun i' m' => coeffsOf_eq_zero mode iou box scores po ex sp thr i' m')
      (maskedScores scores thr).length m with h | h
  · rw [h]
  · rw [h]; exact h0

/-- Witness for the amended C9: soft LINEAR run on masked scores `[5, 9]`;
slot 1 starts at the nonnegative score 9 and ends at 0 ≤ 9. -/
theorem claimC9_scores_nonincreasing_of_nonneg_witness :
    (finalState .LINEAR (fun _ _ => (8:ℤ)) (fun a _ => a) (fun a _ => a)
        (fun n => n) ([5, 9] : List ℤ) 4 0 1).scores 1
      ≤ (maskedScores ([5, 9] : List ℤ) 0).getD 1 0 :=
  claimC9_scores_nonincreasing_of_nonneg .LINEAR (fun _ _ => (8:ℤ))
    (fun a _ => a) (fun a _ => a) (fun n => n) ([5, 9] : List ℤ) 4 0 1 1 (by decide)

/-- C2 (code bug): soft LINEAR run on masked scores `[5, 9]` (sorted order
`[1, 0]`), IoU 8 above threshold 4, `score_threshold = 0`.  The kernel reads
and writes `scores_[i2]` with `i2` a sorted position, but `scores_` is the
pre-sort masked score array: the shape at sorted position 1 is masked index
`order_[1] = 0`, yet slot 0 stays at 5 while slot 1 — the top-ranked shape's
own score — is multiplied (by the zero coefficient) down to 0. -/
theorem claimC2_soft_decay_wrong_slot :
    orderFn (maskedScores ([5, 9] : List ℤ) 0) 1 = 0 ∧
      (finalState .LINEAR (fun _ _ => (8:ℤ)) (fun a _ => a) (fun a _ => a)
        (fun n => n) ([5, 9] : List ℤ) 4 0 1).scores 0 = 5 ∧
      (finalState .LINEAR (fun _ _ => (8:ℤ)) (fun a _ => a) (fun a _ => a)
        (fun n => n) ([5, 9] : List ℤ) 4 0 1).scores 1 = 0 := by
  refine ⟨by decide, by decide, by decide⟩

section HeapModel

/-- A heap of arrays: tensors are references (indices) into the heap. -/
abbrev Heap (α : Type) : Type := List (List α)

/-- Allocate a fresh tensor holding `v`; returns the new heap and the fresh
reference (which is distinct from every existing one). -/
def halloc {α : Type} (h : Heap α) (v : List α) : Heap α × Nat :=
  (h ++ [v], h.length)

/-- Read a tensor. -/
def hread {α : Type} (h : Heap α) (r : Nat) : List α :=
  h.getD r []

/-- Overwrite a tensor in place. -/
def hwrite {α : Type} (h : Heap α) (r : Nat) (v : List α) : Heap α :=
  h.set r v

/-- Reading below the old length is unaffected by an allocation. -/
theorem hread_halloc {α : Type} (h : Heap α) (v : List α) (r : Nat)
    (hr : r < h.length) : hread (halloc h v).1 r = hread h r := by
  unfold hread halloc
  exact List.getD_append h [v] [] r hr

/-- Writing through one reference does not change what another holds. -/
theorem hread_hwrite_ne {α : Type} (h : Heap α) (i j : Nat) (v : List α)
    (hij : i ≠ j) : hread (hwrite h i v) j = hread h j := by
  unfold hread hwrite List.getD
  rw [List.get?_eq_getElem?, List.get?_eq_getElem?, List.getElem?_set_ne hij]

/-- The host function `nms2d_cuda` over the heap model.  `boxes` and `scores`
are the caller's tensors, passed as references.  `boxes_masked` and
`scores_masked` are freshly allocated by the index selections
`boxes.index({score_mask})` / `scores.index({score_mask})`; the two kernel
launches read `boxes_masked` and mutate only `scores_masked` (through its own
reference) plus the locally allocated `mask`, `iou_coeffs`, `remv` and
`suppressed` tensors, whose final contents are returned by value. -/
def nms2dCudaHeap {β K : Type} [LinearOrderedCommRing K]
    (mode : SupressionType) (iou : β → β → K) (po ex : K → K → K) (b0 : β)
    (hb : Heap β) (hq : Heap K) (rBoxes rScores : Nat)
    (iouThr thr sp : K) : Heap β × Heap K × List Bool :=
  let boxes := hread hb rBoxes
  let scores := hread hq rScores
  let hb1 := (halloc hb ((keepIdx scores thr).map (fun i => boxes.getD i b0))).1
  let rBoxesMasked := (halloc hb ((keepIdx scores thr).map (fun i => boxes.getD i b0))).2
  let hq1 := (halloc hq (maskedScores scores thr)).1
  let rScoresMasked := (halloc hq (maskedScores scores thr)).2
  let boxFn := fun m => (hread hb1 rBoxesMasked).getD m b0
  let sm := hread hq1 rScoresMasked
  let final := runCollect mode (orderFn sm)
      (fun idx c => maskWord iou boxFn (orderFn sm) iouThr sm.length idx c)
      (fun idx i => iouCoeff mode iou boxFn (orderFn sm) po ex sp sm.length idx i)
      thr sm.length (divup sm.length 64) (fun m => sm.getD m 0)
  let hq2 := hwrite hq1 rScoresMasked ((List.range sm.length).map final.scores)
  (hb1, hq2, (List.range sm.length).map final.suppressed)

/-- C10: `nms2d_cuda` never mutates the caller's `boxes` and `scores`
tensors: the masked arrays are fresh copies, the soft-mode score decay is
written back only through the fresh `scores_masked` reference, and nothing
writes to the boxes heap at all, so after the call both caller tensors hold
exactly what they held before. -/
theorem claimC10_caller_tensors_unchanged {β K : Type} [LinearOrderedCommRing K]
    (mode : SupressionType) (iou : β → β → K) (po ex : K → K → K) (b0 : β)
    (hb : Heap β) (hq : Heap K) (rBoxes rScores : Nat) (iouThr thr sp : K)
    (hrb : rBoxes < hb.length) (hrs : rScores < hq.length) :
    hread (nms2dCudaHeap mode iou po ex b0 hb hq rBoxes rScores iouThr thr sp).1 rBoxes
        = hread hb rBoxes ∧
      hread (nms2dCudaHeap mode iou po ex b0 hb hq rBoxes rScores iouThr thr sp).2.1 rScores
        = hread hq rScores := by
  constructor
  · exact hread_halloc hb _ rBoxes hrb
  · show hread (hwrite (halloc hq _).1 (halloc hq _).2 _) rScores = hread hq rScores
    rw [hread_hwrite_ne _ _ _ _ (by
      show hq.length ≠ rScores
      omega)]
    exact hread_halloc hq _ rScores hrs

/-- Witness for C10 at a concrete input: one caller boxes tensor `[0, 1]`
and one caller scores tensor `[5, 9]`, both still intact after a soft run. -/
theorem claimC10_caller_tensors_unchanged_witness :
    hread (nms2dCudaHeap .LINEAR (fun _ _ => (8:ℤ)) (fun a _ => a) (fun a _ => a)
        0 [[0, 1]] [[5, 9]] 0 0 4 0 1).1 0 = hread [[0, 1]] 0 ∧
      hread (nms2dCudaHeap .LINEAR (fun _ _ => (8:ℤ)) (fun a _ => a) (fun a _ => a)
        0 [[0, 1]] [[5, 9]] 0 0 4 0 1).2.1 0 = hread [[5, 9]] 0 :=
  claimC10_caller_tensors_unchanged .LINEAR (fun _ _ => (8:ℤ)) (fun a _ => a)
    (fun a _ => a) 0 [[0, 1]] [[5, 9]] 0 0 4 0 1 (by decide) (by decide)

end HeapModel

/-- Reading an updated slot. -/
theorem fupd_pos {α : Type} (f : Nat → α) (i : Nat) (v : α) : fupd f i v i = v := by
  unfold fupd
  simp

/-- Reading any other slot. -/
theorem fupd_neg {α : Type} (f : Nat → α) (i : Nat) (v : α) (x : Nat)
    (h : x ≠ i) : fupd f i v x = f x := by
  unfold fupd
  simp [h]

section HardRun

variable {β K : Type} [LinearOrderedCommRing K]

/-- Run-level monotonicity of the suppression accumulator. -/
theorem runUpTo_remv_mono (mode : SupressionType) (ord : Nat → Nat)
    (mask : Nat → Nat → Nat) (coeffs : Nat → Nat → K) (thr : K)
    (nblocks : Nat) (scores0 : Nat → K) {n m : Nat} (h : n ≤ m) (b t : Nat)
    (hb : ((runUpTo mode ord mask coeffs thr nblocks scores0 n).remv b).testBit t = true) :
    ((runUpTo mode ord mask coeffs thr nblocks scores0 m).remv b).testBit t = true := by
  induction m, h using Nat.le_induction with
  | base => exact hb
  | succ m _ ih =>
    rw [runUpTo_succ]
    exact collectStep_remv_mono mode ord mask coeffs thr nblocks _ m b t ih

/-- The hard-mode inner loop is a bulk word-level OR: its effect on `remv_`
word `x` is to OR in `mask_[i][x]` iff `x` lies in the visited block range. -/
theorem hard_fold_remv (mask : Nat → Nat → Nat) (i base : Nat) :
    ∀ (L : Nat) (s : CollectState K) (x : Nat),
      ((List.range L).foldl
          (fun s' dj =>
            (⟨fupd s'.remv (base + dj) (s'.remv (base + dj) ||| mask i (base + dj)),
              s'.scores, s'.suppressed⟩ : CollectState K)) s).remv x
        = if base ≤ x ∧ x < base + L then s.remv x ||| mask i x else s.remv x := by
  intro L
  induction L with
  | zero =>
    intro s x
    show s.remv x = _
    split
    · next hc => exact absurd hc (by omega)
    · rfl
  | succ L ih =>
    intro s x
    rw [List.range_succ, List.foldl_append, List.foldl_cons, List.foldl_nil]
    show fupd _ (base + L) _ x = _
    by_cases hx : x = base + L
    · subst hx
      rw [fupd_pos]
      rw [ih s (base + L)]
      rw [if_neg (by omega : ¬ (base ≤ base + L ∧ base + L < base + L))]
      rw [if_pos (by omega : base ≤ base + L ∧ base + L < base + (L + 1))]
    · rw [fupd_neg _ _ _ _ hx]
      rw [ih s x]
      by_cases hcond : base ≤ x ∧ x < base + L
      · rw [if_pos hcond, if_pos (by omega : base ≤ x ∧ x < base + (L + 1))]
      · rw [if_neg hcond, if_neg (by omega : ¬ (base ≤ x ∧ x < base + (L + 1)))]

/-- The hard-mode inner loop leaves scores and flags untouched. -/
theorem hard_fold_frame (mask : Nat → Nat → Nat) (i base : Nat) :
    ∀ (L : Nat) (s : CollectState K),
      ((List.range L).foldl
          (fun s' dj =>
            (⟨fupd s'.remv (base + dj) (s'.remv (base + dj) ||| mask i (base + dj)),
              s'.scores, s'.suppressed⟩ : CollectState K)) s).scores = s.scores ∧
      ((List.range L).foldl
          (fun s' dj =>
            (⟨fupd s'.remv (base + dj) (s'.remv (base + dj) ||| mask i (base + dj)),
              s'.scores, s'.suppressed⟩ : CollectState K)) s).suppressed = s.suppressed := by
  intro L
  induction L with
  | zero => intro s; exact ⟨rfl, rfl⟩
  | succ L ih =>
    intro s
    rw [List.range_succ, List.foldl_append, List.foldl_cons, List.foldl_nil]
    exact ih s

/-- One hard-mode iteration from an unsuppressed row `i` ORs the overlap row
into the visited accumulator words. -/
theorem collectStep_hard_remv (ord : Nat → Nat) (mask : Nat → Nat → Nat)
    (coeffs : Nat → Nat → K) (thr : K) (nblocks : Nat) (s : CollectState K)
    (i : Nat) (hbit : (s.remv (i / 64)).testBit (i % 64) = false) (x : Nat) :
    (collectStep .HARD ord mask coeffs thr nblocks s i).remv x
      = if i / 64 ≤ x ∧ x < nblocks then s.remv x ||| mask i x else s.remv x := by
  unfold collectStep
  rw [if_neg (by rw [hbit]; exact Bool.false_ne_true)]
  rw [hard_fold_remv mask i (i / 64) (nblocks - i / 64) s x]
  by_cases hc : i / 64 ≤ x ∧ x < i / 64 + (nblocks - i / 64)
  · rw [if_pos hc, if_pos (by omega : i / 64 ≤ x ∧ x < nblocks)]
  · by_cases hc2 : i / 64 ≤ x ∧ x < nblocks
    · exact absurd (by omega : i / 64 ≤ x ∧ x < i / 64 + (nblocks - i / 64)) hc
    · rw [if_neg hc, if_neg hc2]

/-- Greedy invariant of hard NMS: two sorted positions that both survive the
whole run have pairwise IoU at most the threshold (in sorted direction). -/
theorem hard_kept_pairwise_low_iou (iou : β → β → K) (po ex : K → K → K)
    (box : Nat → β) (scores : List K) (iouThr thr sp : K)
    {a b : Nat} (hab : a < b) (hbM : b < (maskedScores scores thr).length)
    (ha : ((finalState .HARD iou po ex box scores iouThr thr sp).remv (a / 64)).testBit (a % 64) = false)
    (hb : ((finalState .HARD iou po ex box scores iouThr thr sp).remv (b / 64)).testBit (b % 64) = false) :
    iou (maskedBox box scores thr (orderFn (maskedScores scores thr) a))
        (maskedBox box scores thr (orderFn (maskedScores scores thr) b)) ≤ iouThr := by
  have haM : a < (maskedScores scores thr).length := lt_trans hab hbM
  have hst := finalState_remv_stable .HARD iou po ex box scores iouThr thr sp a (le_of_lt haM)
  rw [hst] at ha
  have hbnb : b / 64 < divup (maskedScores scores thr).length 64 := by
    unfold divup; omega
  have hsucc : (runUpTo .HARD (orderFn (maskedScores scores thr))
        (maskOf iou box scores iouThr thr)
        (coeffsOf .HARD iou box scores po ex sp thr) thr
        (divup (maskedScores scores thr).length 64)
        (fun m => (maskedScores scores thr).getD m 0) (a + 1)).remv (b / 64)
      = (runUpTo .HARD (orderFn (maskedScores scores thr))
        (maskOf iou box scores iouThr thr)
        (coeffsOf .HARD iou box scores po ex sp thr) thr
        (divup (maskedScores scores thr).length 64)
        (fun m => (maskedScores scores thr).getD m 0) a).remv (b / 64)
        ||| maskOf iou box scores iouThr thr a (b / 64) := by
    rw [runUpTo_succ]
    rw [collectStep_hard_remv (orderFn (maskedScores scores thr))
      (maskOf iou box scores iouThr thr)
      (coeffsOf .HARD iou box scores po ex sp thr) thr
      (divup (maskedScores scores thr).length 64) _ a ha (b / 64)]
    rw [if_pos ⟨by omega, hbnb⟩]
  have hmaskbit : (maskOf iou box scores iouThr thr a (b / 64)).testBit (b % 64) = false := by
    by_contra hne
    have htrue : (maskOf iou box scores iouThr thr a (b / 64)).testBit (b % 64) = true :=
      eq_true_of_ne_false fun h => hne (h ▸ rfl)
    have h1 : ((runUpTo .HARD (orderFn (maskedScores scores thr))
        (maskOf iou box scores iouThr thr)
        (coeffsOf .HARD iou box scores po ex sp thr) thr
        (divup (maskedScores scores thr).length 64)
        (fun m => (maskedScores scores thr).getD m 0) (a + 1)).remv (b / 64)).testBit (b % 64) = true := by
      rw [hsucc, Nat.testBit_or, htrue, Bool.or_true]
    have h2 := runUpTo_remv_mono .HARD (orderFn (maskedScores scores thr))
      (maskOf iou box scores iouThr thr)
      (coeffsOf .HARD iou box scores po ex sp thr) thr
      (divup (maskedScores scores thr).length 64)
      (fun m => (maskedScores scores thr).getD m 0)
      (show a + 1 ≤ (maskedScores scores thr).length by omega) (b / 64) (b % 64) h1
    unfold finalState runCollect at hb
    rw [hb] at h2
    exact Bool.false_ne_true h2
  unfold maskOf at hmaskbit
  rw [maskWord_testBit, decide_eq_false_iff_not] at hmaskbit
  by_contra hgt
  apply hmaskbit
  have hb64 : b / 64 * 64 + b % 64 = b := by omega
  refine ⟨by omega, haM, ?_, ?_, ?_⟩
  · show b % 64 < colSize (maskedScores scores thr).length (b / 64)
    unfold colSize
    omega
  · show loopStart a (b / 64) ≤ b % 64
    unfold loopStart
    split
    · next hsame => omega
    · omega
  · rw [hb64]
    exact lt_of_not_le hgt

end HardRun

section KeptFacts

variable {β K : Type} [LinearOrderedCommRing K]

/-- The final flag of the shape at sorted position `p` equals the final
accumulator bit of position `p`. -/
theorem finalState_suppressed_iff_bit (mode : SupressionType) (iou : β → β → K)
    (po ex : K → K → K) (box : Nat → β) (scores : List K)
    (iouThr thr sp : K) (p : Nat)
    (hp : p < (maskedScores scores thr).length) :
    (finalState mode iou po ex box scores iouThr thr sp).suppressed
        (orderFn (maskedScores scores thr) p) = true
      ↔ ((finalState mode iou po ex box scores iouThr thr sp).remv (p / 64)).testBit (p % 64) = true := by
  rw [finalState_remv_stable mode iou po ex box scores iouThr thr sp p (le_of_lt hp)]
  unfold finalState runCollect
  rw [runUpTo_suppressed_char]
  constructor
  · rintro ⟨i, hi, hm, hb⟩
    have hieq : p = i := orderFn_inj (maskedScores scores thr) hp hi hm
    subst hieq
    exact hb
  · intro hb
    exact ⟨p, hp, rfl, hb⟩

/-- Membership in the kept-index list. -/
theorem keptIdx_mem (mode : SupressionType) (iou : β → β → K)
    (po ex : K → K → K) (box : Nat → β) (scores : List K)
    (iouThr thr sp : K) (m : Nat) :
    m ∈ keptIdx mode iou po ex box scores iouThr thr sp
      ↔ (m < (maskedScores scores thr).length ∧
          (finalState mode iou po ex box scores iouThr thr sp).suppressed m = false) := by
  unfold keptIdx
  rw [List.mem_filter, List.mem_range]
  constructor
  · rintro ⟨h1, h2⟩
    exact ⟨h1, by rwa [Bool.not_eq_true'] at h2⟩
  · rintro ⟨h1, h2⟩
    exact ⟨h1, by rwa [Bool.not_eq_true']⟩

/-- Every masked score passed the strict score filter. -/
theorem maskedScores_gt_thr (scores : List K) (thr : K) :
    ∀ x ∈ maskedScores scores thr, thr < x := by
  intro x hx
  unfold maskedScores at hx
  obtain ⟨i, hi, hix⟩ := List.mem_map.mp hx
  unfold keepIdx at hi
  obtain ⟨_, h2⟩ := List.mem_filter.mp hi
  rw [decide_eq_true_eq] at h2
  rw [← hix]
  exact h2

/-- `getD` of an index below the length is a member. -/
theorem getD_mem_of_lt {α : Type} (l : List α) (d : α) (n : Nat)
    (h : n < l.length) : l.getD n d ∈ l := by
  rw [List.getD_eq_getElem l d h]
  exact List.getElem_mem h

/-- The kept scores also all passed the strict filter. -/
theorem keptScores_gt_thr (mode : SupressionType) (iou : β → β → K)
    (po ex : K → K → K) (box : Nat → β) (scores : List K)
    (iouThr thr sp : K) :
    ∀ x ∈ keptScores mode iou po ex box scores iouThr thr sp, thr < x := by
  intro x hx
  unfold keptScores at hx
  obtain ⟨m, hm, hmx⟩ := List.mem_map.mp hx
  have hmM := ((keptIdx_mem mode iou po ex box scores iouThr thr sp m).mp hm).1
  rw [← hmx]
  exact maskedScores_gt_thr scores thr _ (getD_mem_of_lt _ 0 m hmM)

/-- Mapping `getD` over the index range reproduces the list. -/
theorem map_getD_range {α : Type} (l : List α) (d : α) :
    (List.range l.length).map (fun i => l.getD i d) = l := by
  apply List.ext_getElem
  · rw [List.length_map, List.length_range]
  · intro i h1 h2
    rw [List.getElem_map, List.getElem_range, List.getD_eq_getElem l d h2]

/-- A list all of whose entries beat the threshold survives the pre-filter
wholesale. -/
theorem keepIdx_all (scores : List K) (thr : K)
    (h : ∀ x ∈ scores, thr < x) :
    keepIdx scores thr = List.range scores.length := by
  unfold keepIdx
  apply List.filter_eq_self.mpr
  intro i hi
  rw [decide_eq_true_eq]
  exact h _ (getD_mem_of_lt _ 0 i (List.mem_range.mp hi))

/-- Re-filtering a list that fully passes the filter is the identity. -/
theorem maskedScores_all (scores : List K) (thr : K)
    (h : ∀ x ∈ scores, thr < x) :
    maskedScores scores thr = scores := by
  unfold maskedScores
  rw [keepIdx_all scores thr h]
  exact map_getD_range scores 0

end KeptFacts

section SortTransfer

variable {K : Type} [LinearOrderedCommRing K]

/-- Entries of the model argsort are valid positions. -/
theorem orderList_mem_lt (s : List K) {x : Nat} (hx : x ∈ orderList s) :
    x < s.length :=
  List.mem_range.mp ((orderList_perm s).mem_iff.mp hx)

/-- Re-sorting the kept sublist (with the pinned stable tie-break) visits the
kept shapes in exactly the order the first sort visited them: mapping the
second argsort through the kept-index list equals filtering the first argsort
to the kept indices. -/
theorem orderMap_eq_filter (sm : List K) (supp : Nat → Bool) (Kl : List Nat)
    (hKl : Kl = (List.range sm.length).filter (fun m => !supp m))
    (ks : List K) (hks : ks = Kl.map (fun m => sm.getD m 0)) :
    (orderList ks).map (fun u => Kl.getD u 0)
      = (orderList sm).filter (fun x => decide (x ∈ Kl)) := by
  have hmono : Kl.Pairwise (· < ·) := by
    rw [hKl]
    exact List.Pairwise.filter _ (List.pairwise_lt_range sm.length)
  have hmem : ∀ x ∈ Kl, x < sm.length := by
    intro x hx
    rw [hKl] at hx
    exact List.mem_range.mp (List.mem_filter.mp hx).1
  have hlen : ks.length = Kl.length := by rw [hks, List.length_map]
  have hgetD : ∀ u, u < Kl.length → ks.getD u 0 = sm.getD (Kl.getD u 0) 0 := by
    intro u hu
    rw [hks]
    rw [List.getD_eq_getElem _ 0 (by rw [List.length_map]; exact hu), List.getElem_map]
    rw [List.getD_eq_getElem _ 0 hu]
  have hKlmono : ∀ u u', u < Kl.length → u' < Kl.length → u ≤ u' →
      Kl.getD u 0 ≤ Kl.getD u' 0 := by
    intro u u' hu hu' huu
    rcases Nat.lt_or_ge u u' with h | h
    · rw [List.getD_eq_getElem _ 0 hu, List.getD_eq_getElem _ 0 hu']
      exact le_of_lt (List.pairwise_iff_getElem.mp hmono u u' hu hu' h)
    · have : u = u' := Nat.le_antisymm huu h
      subst this
      exact le_refl _
  have hfilter_range : (List.range sm.length).filter (fun x => decide (x ∈ Kl)) = Kl := by
    have hcongr : ∀ x ∈ List.range sm.length,
        (fun x => decide (x ∈ Kl)) x = (fun m => !supp m) x := by
      intro x hx
      have hiff : x ∈ Kl ↔ (!supp x) = true := by
        rw [hKl, List.mem_filter]
        exact ⟨fun h => h.2, fun h => ⟨hx, h⟩⟩
      show decide (x ∈ Kl) = !supp x
      rw [decide_eq_decide.mpr hiff, Bool.decide_eq_true]
    exact (List.filter_congr hcongr).trans hKl.symm
  have e1 : (List.range ks.length).map (fun u => Kl.getD u 0) = Kl := by
    rw [hlen]
    exact map_getD_range Kl 0
  have hperm1 : List.Perm ((orderList ks).map (fun u => Kl.getD u 0)) Kl := by
    have h := (orderList_perm ks).map (fun u => Kl.getD u 0)
    rw [e1] at h
    exact h
  have hperm2 : List.Perm ((orderList sm).filter (fun x => decide (x ∈ Kl))) Kl := by
    have h := (orderList_perm sm).filter (fun x => decide (x ∈ Kl))
    rw [hfilter_range] at h
    exact h
  have hsorted2 : List.Sorted (keyRel sm) ((orderList sm).filter (fun x => decide (x ∈ Kl))) :=
    List.Pairwise.filter _ (orderList_sorted sm)
  have hsorted1 : List.Sorted (keyRel sm) ((orderList ks).map (fun u => Kl.getD u 0)) := by
    show List.Pairwise _ _
    rw [List.pairwise_map]
    refine List.Pairwise.imp_of_mem ?_ (orderList_sorted ks)
    intro u u' hu hu' hkey
    have huL : u < Kl.length := by rw [← hlen]; exact orderList_mem_lt ks hu
    have huL' : u' < Kl.length := by rw [← hlen]; exact orderList_mem_lt ks hu'
    rcases hkey with h | ⟨heq, hle⟩
    · left
      rw [← hgetD u huL, ← hgetD u' huL']
      exact h
    · right
      constructor
      · rw [← hgetD u huL, ← hgetD u' huL']
        exact heq
      · exact hKlmono u u' huL huL' hle
  exact List.eq_of_perm_of_sorted (hperm1.trans hperm2.symm) hsorted1 hsorted2

end SortTransfer

section Idempotence

variable {β K : Type} [LinearOrderedCommRing K]

/-- `getD` on `List.range`. -/
theorem getD_range {n m : Nat} (h : m < n) : (List.range n).getD m 0 = m := by
  rw [List.getD_eq_getElem _ 0 (by rw [List.length_range]; exact h)]
  exact List.getElem_range _ _

/-- Along the first run's sorted order, any two shapes that both survive have
IoU at most the threshold. -/
theorem hard_orderList_pairwise (iou : β → β → K) (po ex : K → K → K)
    (box : Nat → β) (scores : List K) (iouThr thr sp : K) :
    List.Pairwise
      (fun x y =>
        (finalState .HARD iou po ex box scores iouThr thr sp).suppressed x = false →
        (finalState .HARD iou po ex box scores iouThr thr sp).suppressed y = false →
        iou (maskedBox box scores thr x) (maskedBox box scores thr y) ≤ iouThr)
      (orderList (maskedScores scores thr)) := by
  rw [List.pairwise_iff_getElem]
  intro pa pb hpa hpb hab
  rw [orderList_length] at hpa hpb
  have hga : (orderList (maskedScores scores thr))[pa] = orderFn (maskedScores scores thr) pa := by
    unfold orderFn
    rw [List.getD_eq_getElem _ 0 (by rw [orderList_length]; exact hpa)]
  have hgb : (orderList (maskedScores scores thr))[pb] = orderFn (maskedScores scores thr) pb := by
    unfold orderFn
    rw [List.getD_eq_getElem _ 0 (by rw [orderList_length]; exact hpb)]
  rw [hga, hgb]
  intro hsa hsb
  have hba : ((finalState .HARD iou po ex box scores iouThr thr sp).remv (pa / 64)).testBit (pa % 64) = false := by
    by_contra hne
    have htrue : ((finalState .HARD iou po ex box scores iouThr thr sp).remv (pa / 64)).testBit (pa % 64) = true :=
      eq_true_of_ne_false fun h => hne (h ▸ rfl)
    have := (finalState_suppressed_iff_bit .HARD iou po ex box scores iouThr thr sp pa hpa).mpr htrue
    rw [hsa] at this
    exact Bool.false_ne_true this
  have hbb : ((finalState .HARD iou po ex box scores iouThr thr sp).remv (pb / 64)).testBit (pb % 64) = false := by
    by_contra hne
    have htrue : ((finalState .HARD iou po ex box scores iouThr thr sp).remv (pb / 64)).testBit (pb % 64) = true :=
      eq_true_of_ne_false fun h => hne (h ▸ rfl)
    have := (finalState_suppressed_iff_bit .HARD iou po ex box scores iouThr thr sp pb hpb).mpr htrue
    rw [hsb] at this
    exact Bool.false_ne_true this
  exact hard_kept_pairwise_low_iou iou po ex box scores iouThr thr sp hab hpb hba hbb

/-- A hard-mode collect run over an all-zero overlap matrix suppresses
nothing: the accumulator stays zero and every flag stays false. -/
theorem runUpTo_hard_zero_mask (ord : Nat → Nat) (mask : Nat → Nat → Nat)
    (coeffs : Nat → Nat → K) (thr : K) (nblocks : Nat) (scores0 : Nat → K)
    (hm : ∀ i j, mask i j = 0) :
    ∀ n, (∀ x, (runUpTo .HARD ord mask coeffs thr nblocks scores0 n).remv x = 0) ∧
      (∀ m, (runUpTo .HARD ord mask coeffs thr nblocks scores0 n).suppressed m = false) := by
  intro n
  induction n with
  | zero => exact ⟨fun _ => rfl, fun _ => rfl⟩
  | succ n ih =>
    rw [runUpTo_succ]
    set s := runUpTo .HARD ord mask coeffs thr nblocks scores0 n with hs
    have hbit : (s.remv (n / 64)).testBit (n % 64) = false := by
      rw [ih.1]
      exact Nat.zero_testBit _
    constructor
    · intro x
      rw [collectStep_hard_remv ord mask coeffs thr nblocks s n hbit x]
      split
      · rw [ih.1, hm]
        rfl
      · exact ih.1 x
    · intro m
      show (collectStep .HARD ord mask coeffs thr nblocks s n).suppressed m = false
      unfold collectStep
      rw [if_neg (by rw [hbit]; exact Bool.false_ne_true)]
      rw [(hard_fold_frame mask n (n / 64) (nblocks - n / 64) s).2]
      exact ih.2 m

end Idempotence

section IdempotenceMain

variable {β K : Type} [LinearOrderedCommRing K]

/-- Re-running hard NMS on the kept subset produces an all-zero overlap
matrix: every pair of kept shapes already had IoU at most the threshold. -/
theorem hard_second_mask_zero (iou : β → β → K) (po ex : K → K → K)
    (box : Nat → β) (scores : List K) (iouThr thr sp : K) (idx c : Nat) :
    maskOf iou (keptBox .HARD iou po ex box scores iouThr thr sp)
      (keptScores .HARD iou po ex box scores iouThr thr sp) iouThr thr idx c = 0 := by
  have hall : ∀ x ∈ keptScores .HARD iou po ex box scores iouThr thr sp, thr < x :=
    keptScores_gt_thr .HARD iou po ex box scores iouThr thr sp
  have hms : maskedScores (keptScores .HARD iou po ex box scores iouThr thr sp) thr
      = keptScores .HARD iou po ex box scores iouThr thr sp :=
    maskedScores_all _ thr hall
  apply Nat.eq_of_testBit_eq
  intro k
  rw [Nat.zero_testBit]
  unfold maskOf
  rw [maskWord_testBit, decide_eq_false_iff_not]
  rw [hms]
  rintro ⟨hc1, hidxn, hk, hstart, hiou⟩
  obtain ⟨hij, hjn⟩ := block_bit_lt hk hstart hc1
  have hklen : (keptScores .HARD iou po ex box scores iouThr thr sp).length
      = (keptIdx .HARD iou po ex box scores iouThr thr sp).length := by
    unfold keptScores
    rw [List.length_map]
  have hbox : ∀ m, m < (keptScores .HARD iou po ex box scores iouThr thr sp).length →
      maskedBox (keptBox .HARD iou po ex box scores iouThr thr sp)
          (keptScores .HARD iou po ex box scores iouThr thr sp) thr m
        = maskedBox box scores thr
            ((keptIdx .HARD iou po ex box scores iouThr thr sp).getD m 0) := by
    intro m hm
    show keptBox .HARD iou po ex box scores iouThr thr sp
        ((keepIdx (keptScores .HARD iou po ex box scores iouThr thr sp) thr).getD m 0) = _
    rw [keepIdx_all _ thr hall, getD_range hm]
    rfl
  have hidxlt : orderFn (keptScores .HARD iou po ex box scores iouThr thr sp) idx
      < (keptScores .HARD iou po ex box scores iouThr thr sp).length :=
    orderFn_lt _ hidxn
  have hjlt : orderFn (keptScores .HARD iou po ex box scores iouThr thr sp) (c * 64 + k)
      < (keptScores .HARD iou po ex box scores iouThr thr sp).length :=
    orderFn_lt _ hjn
  -- pairwise low IoU on the kept shapes, transported through the second sort
  have P2 := List.Pairwise.filter
      (fun x => decide (x ∈ keptIdx .HARD iou po ex box scores iouThr thr sp))
      (hard_orderList_pairwise iou po ex box scores iouThr thr sp)
  have P3 : List.Pairwise
      (fun x y => iou (maskedBox box scores thr x) (maskedBox box scores thr y) ≤ iouThr)
      ((orderList (maskedScores scores thr)).filter
        (fun x => decide (x ∈ keptIdx .HARD iou po ex box scores iouThr thr sp))) := by
    refine List.Pairwise.imp_of_mem ?_ P2
    intro x y hx hy hq
    have hxk : x ∈ keptIdx .HARD iou po ex box scores iouThr thr sp :=
      of_decide_eq_true (List.mem_filter.mp hx).2
    have hyk : y ∈ keptIdx .HARD iou po ex box scores iouThr thr sp :=
      of_decide_eq_true (List.mem_filter.mp hy).2
    exact hq ((keptIdx_mem .HARD iou po ex box scores iouThr thr sp x).mp hxk).2
      ((keptIdx_mem .HARD iou po ex box scores iouThr thr sp y).mp hyk).2
  have E := orderMap_eq_filter (maskedScores scores thr)
      (finalState .HARD iou po ex box scores iouThr thr sp).suppressed
      (keptIdx .HARD iou po ex box scores iouThr thr sp) (by rfl)
      (keptScores .HARD iou po ex box scores iouThr thr sp) (by rfl)
  have P4 : List.Pairwise
      (fun x y => iou (maskedBox box scores thr x) (maskedBox box scores thr y) ≤ iouThr)
      ((orderList (keptScores .HARD iou po ex box scores iouThr thr sp)).map
        (fun u => (keptIdx .HARD iou po ex box scores iouThr thr sp).getD u 0)) := by
    rw [E]
    exact P3
  have P5 := List.pairwise_map.mp P4
  have hlen2 : idx < (orderList (keptScores .HARD iou po ex box scores iouThr thr sp)).length := by
    rw [orderList_length]; exact hidxn
  have hlen3 : c * 64 + k < (orderList (keptScores .HARD iou po ex box scores iouThr thr sp)).length := by
    rw [orderList_length]; exact hjn
  have hq := List.pairwise_iff_getElem.mp P5 idx (c * 64 + k) hlen2 hlen3 hij
  have hgidx : (orderList (keptScores .HARD iou po ex box scores iouThr thr sp))[idx]
      = orderFn (keptScores .HARD iou po ex box scores iouThr thr sp) idx := by
    unfold orderFn
    rw [List.getD_eq_getElem _ 0 hlen2]
  have hgj : (orderList (keptScores .HARD iou po ex box scores iouThr thr sp))[c * 64 + k]
      = orderFn (keptScores .HARD iou po ex box scores iouThr thr sp) (c * 64 + k) := by
    unfold orderFn
    rw [List.getD_eq_getElem _ 0 hlen3]
  rw [hgidx, hgj] at hq
  rw [hbox _ hidxlt, hbox _ hjlt] at hiou
  exact absurd hiou (not_lt.mpr hq)

/-- C8: in HARD mode, running the full algorithm again on exactly the subset
of shapes kept by a first run, with the same thresholds, suppresses nothing:
every flag of the second run is false (the flag tensor is all-false). -/
theorem claimC8_hard_idempotent (iou : β → β → K) (po ex : K → K → K)
    (box : Nat → β) (scores : List K) (iouThr thr sp : K) :
    (∀ m, (finalState .HARD iou po ex
        (keptBox .HARD iou po ex box scores iouThr thr sp)
        (keptScores .HARD iou po ex box scores iouThr thr sp)
        iouThr thr sp).suppressed m = false) ∧
      nmsFlags .HARD iou po ex
          (keptBox .HARD iou po ex box scores iouThr thr sp)
          (keptScores .HARD iou po ex box scores iouThr thr sp) iouThr thr sp
        = List.replicate
            (maskedScores (keptScores .HARD iou po ex box scores iouThr thr sp) thr).length
            false := by
  have hz := runUpTo_hard_zero_mask
    (orderFn (maskedScores (keptScores .HARD iou po ex box scores iouThr thr sp) thr))
    (maskOf iou (keptBox .HARD iou po ex box scores iouThr thr sp)
      (keptScores .HARD iou po ex box scores iouThr thr sp) iouThr thr)
    (coeffsOf .HARD iou (keptBox .HARD iou po ex box scores iouThr thr sp)
      (keptScores .HARD iou po ex box scores iouThr thr sp) po ex sp thr)
    thr
    (divup (maskedScores (keptScores .HARD iou po ex box scores iouThr thr sp) thr).length 64)
    (fun m => (maskedScores (keptScores .HARD iou po ex box scores iouThr thr sp) thr).getD m 0)
    (fun i j => hard_second_mask_zero iou po ex box scores iouThr thr sp i j)
    (maskedScores (keptScores .HARD iou po ex box scores iouThr thr sp) thr).length
  constructor
  · intro m
    exact hz.2 m
  · rw [List.eq_replicate_iff]
    constructor
    · unfold nmsFlags
      rw [List.length_map, List.length_range]
    · intro b hb
      unfold nmsFlags at hb
      obtain ⟨m, _, hmb⟩ := List.mem_map.mp hb
      rw [← hmb]
      exact hz.2 m

end IdempotenceMain
